import Mathlib

/-!
Verification of the gh-fake-analyzer specification against its source.

The definitions below are shallow embeddings of the Python source under
src/src/gh_fake_analyzer/: pure fragments become Lean functions, Python
sets become duplicate-free lists built with insert-if-absent (only
membership in them is ever consumed), machine integers become Int/Nat,
and fallible calls return Option.  Python string operations on the ASCII
inputs relevant here are modelled by explicit functions on the character
list backing a String.
-/

namespace GhFake

/-- Models Python str.lower for the ASCII strings handled by the tool. -/
def sLower (s : String) : String := String.mk (s.data.map Char.toLower)

/-- Boolean test that the first character list starts the second. -/
def chStarts : List Char → List Char → Bool
  | [], _ => true
  | _ :: _, [] => false
  | a :: as, b :: bs => a == b && chStarts as bs

/-- Boolean test that the first character list occurs inside the second,
    modelling the Python `in` operator on strings. -/
def chOccurs (pat : List Char) : List Char → Bool
  | [] => chStarts pat []
  | c :: cs => chStarts pat (c :: cs) || chOccurs pat cs

/-- Models Python `sub in s` on strings. -/
def strIn (sub s : String) : Bool := chOccurs sub.data s.data

/-- Models Python `s.startswith (pre)`. -/
def strStarts (s pre : String) : Bool := chStarts pre.data s.data

/-- Models Python `s.split (sep)[0]`: the segment before the first
    separator, the whole string when the separator is absent. -/
def splitHead (sep : Char) (s : String) : String :=
  String.mk (s.data.takeWhile (fun c => c != sep))

/-- The remainder of the string after the first occurrence of the
    separator; together with splitHead it models `s.split (sep)[1]`
    (the segment between the first and second separator) under the guard
    that the separator is present. -/
def afterFirst (sep : Char) (s : String) : String :=
  String.mk ((s.data.dropWhile (fun c => c != sep)).drop 1)

/-- Characters stripped by Python str.strip (the ASCII whitespace set). -/
def pyWhite (c : Char) : Bool :=
  c == ' ' || c == '\t' || c == '\n' || c == '\r' || c == '\x0b' || c == '\x0c'

/-- Models Python str.strip. -/
def pyStrip (s : String) : String :=
  String.mk (((s.data.dropWhile pyWhite).reverse.dropWhile pyWhite).reverse)

/-- Models Python `s.replace (" ", "")`. -/
def remSpaces (s : String) : String :=
  String.mk (s.data.filter (fun c => c != ' '))

/-- Python set.add on a list model: append only when absent, so the list
    stays duplicate-free and only membership is observable. -/
def insertNew {α : Type} [DecidableEq α] (x : α) (l : List α) : List α :=
  if x ∈ l then l else l ++ [x]

theorem mem_insertNew_self {α : Type} [DecidableEq α] (x : α) (l : List α) :
    x ∈ insertNew x l := by
  unfold insertNew
  split
  · assumption
  · simp

theorem mem_insertNew_of_mem {α : Type} [DecidableEq α] {y : α} (x : α) {l : List α}
    (h : y ∈ l) : y ∈ insertNew x l := by
  unfold insertNew
  split
  · assumption
  · simp [h]

end GhFake

namespace GhFake.Filter

/-!
Embedding of GitHubDataFilter (modules/filter.py) and the denylist
POPULAR_COMMIT_MESSAGES (utils/data.py).

Commit dictionaries consumed here carry commit.commit.author.date and
commit.commit.message; dates are modelled as Int timestamps (the result
of dateutil parser.parse, at whatever sub-second resolution the source
string has), messages as strings.
-/

/-- One commit as seen by the filter: the parsed author date and the
    commit message. -/
structure RepoCommit where
  author_date : Int
  message : String
deriving DecidableEq, Repr

/-- One flag record produced by filter_by_creation_date. -/
structure DateFlag where
  repo : String
  reason : String
  commit_date : Int
deriving DecidableEq, Repr

/-- Embeds GitHubDataFilter.filter_by_creation_date: for every repo with
    a non-empty commit list, compare the last list element's author date
    (the earliest commit, the history walk being reverse-chronological)
    with the parsed account creation date and flag on strict `<`. -/
def filter_by_creation_date (commits_data : List (String × List RepoCommit))
    (account_date : Int) : List DateFlag :=
  commits_data.foldl
    (fun acc entry =>
      match entry.2.getLast? with
      | none => acc
      | some firstCommit =>
        if firstCommit.author_date < account_date then
          acc ++ [{ repo := entry.1,
                    reason := "account creation date later than the first commit to the repository",
                    commit_date := firstCommit.author_date }]
        else acc)
    []

/-- POPULAR_COMMIT_MESSAGES from utils/data.py, element for element.  In
    the source the entries from "Update README.md" onward carry no
    trailing commas, so Python implicit string-literal concatenation
    fuses those 92 quoted lines into a single list element; the `++`
    chain below reproduces that element from the same quoted lines.  The
    list therefore has 85 elements, and strings such as "initial commit"
    or "update" are not members. -/
def POPULAR_COMMIT_MESSAGES : List String := [
  "ci: update workflow",
  "update ci",
  "fix pipeline",
  "update actions",
  "update workflow",
  "update ci/cd",
  "build(deps): bump",
  "chore(deps)",
  "update dependencies",
  "deps: update",
  "upgrade dependencies",
  "npm update",
  "yarn upgrade",
  "update packages",
  "wip: initial implementation",
  "work in progress",
  "todo: implement",
  "draft: initial version",
  "temp commit",
  "checkpoint",
  "save progress",
  "backup",
  "docs: update",
  "update docs",
  "fix documentation",
  "update changelog.md",
  "update contributing.md",
  "update license",
  "hotfix",
  "quickfix",
  "minor fix",
  "patch",
  "bugfix",
  "fix: typo",
  "fix build",
  "fix error",
  "fix warning",
  "fix lint",
  "clean up code",
  "code cleanup",
  "remove unused",
  "delete old files",
  "formatting",
  "format code",
  "initial implementation",
  "add feature",
  "implement",
  "new feature",
  "update config",
  "config: update",
  "update settings",
  "update env",
  "update docker",
  "update k8s",
  "add tests",
  "update tests",
  "fix failing tests",
  "test: add",
  "test: update",
  "merge develop",
  "merge master",
  "merge main",
  "merge branch",
  "resolve conflicts",
  "cherry-pick",
  "rebase",
  "bump version",
  "release v",
  "prepare release",
  "update version",
  "style: fix",
  "update styles",
  "ui: update",
  "css updates",
  "design changes",
  "更新",
  "修复",
  "初始化",
  "修正",
  "変更",
  "actualización",
  "corrección",
  "MIT LICENSE",
  "README.md",
  "Update README.md"
    ++ "Initial commit"
    ++ "fake commit"
    ++ "Add files via upload"
    ++ "update"
    ++ "Create README.md"
    ++ "first commit"
    ++ "🔁 Update README"
    ++ "- update README.md"
    ++ "initial commit"
    ++ "Update readme.md"
    ++ "Update index.html"
    ++ "Update changelog"
    ++ "- add README.md"
    ++ "commit"
    ++ "update readme"
    ++ "Refactor"
    ++ "fix"
    ++ "Update"
    ++ "- update .github/workflows/build.yml"
    ++ "- update .github/workflows/build-mingw.yml"
    ++ "Update README."
    ++ "."
    ++ "init"
    ++ "Updates"
    ++ "..."
    ++ "Initialize project using Create React App"
    ++ "➕ Add Image 🖼"
    ++ "🔁 Edit HTML"
    ++ "Update github-metrics.svg - [Skip GitHub Action]"
    ++ "- upload files"
    ++ "update changelog"
    ++ "updated"
    ++ "updated readme"
    ++ "Regenerate build artifacts."
    ++ "design"
    ++ "Create LICENSE"
    ++ "🔄 Update README"
    ++ "cleanup"
    ++ "- update .github/workflows/push.yml"
    ++ "Update style.css"
    ++ "create file"
    ++ "Merge branch \x27master\x27 into master"
    ++ "readme"
    ++ "Update readme"
    ++ "- add .github/workflows/build.yml"
    ++ "test"
    ++ "- init"
    ++ "Initial commit from Create Next App"
    ++ "🔁 Refactoring"
    ++ "Update package.json"
    ++ "Merge remote-tracking branch \x27origin/master\x27"
    ++ "Update schema"
    ++ "Update README"
    ++ "add dist"
    ++ "- update index.html"
    ++ "Update tools"
    ++ "fix typo"
    ++ "Initial Commit"
    ++ "changes"
    ++ "Update generated files"
    ++ "プロジェクト ファイルを追加します。"
    ++ "Update diagrams.xml"
    ++ "fixes"
    ++ "Update version"
    ++ "Fix typo"
    ++ "version bump"
    ++ "Fix linters"
    ++ "Merge branch \x27main\x27 into main"
    ++ "- update Dockerfile"
    ++ "wip"
    ++ "Update Readme.md"
    ++ "README.md"
    ++ "changed"
    ++ "Updated README"
    ++ "⬆️ Init"
    ++ "lint"
    ++ "Fix tests"
    ++ "init, working"
    ++ "Commit"
    ++ "changed the code"
    ++ "update README"
    ++ "Update .gitignore"
    ++ "bug fixes"
    ++ "fix tests"
    ++ "modified"
    ++ "Update dependencies"
    ++ "sync"
    ++ "Update anime.md"
    ++ "Update requirements.txt"
    ++ "initial"
    ++ "final"
]

/-- Embeds GitHubDataFilter._valid_target_search: the stripped message
    must not be a member of the denylist. -/
def valid_target_search (message : String) : Bool :=
  !(POPULAR_COMMIT_MESSAGES.contains (pyStrip message))

/-- Embeds GitHubDataFilter._clean_commit_message: newlines and carriage
    returns become spaces. -/
def clean_commit_message (message : String) : String :=
  String.mk (message.data.map (fun c => if c == '\n' || c == '\r' then ' ' else c))

/-- The outbound similarity-search queries _process_repo_commits issues
    for one repository's commits: one query per commit whose message
    passes _valid_target_search, carrying the cleaned message. -/
def issuedQueries (commits : List RepoCommit) : List String :=
  (commits.filter (fun c => valid_target_search c.message)).map
    (fun c => clean_commit_message c.message)

end GhFake.Filter

namespace GhFake.Api

/-!
Embedding of APIUtils (utils/api.py): the retry loop of
github_api_request, the backoff computation of _handle_rate_limit, and
the pagination of fetch_all_pages.
-/

/-- APIUtils.RETRY_LIMIT. -/
def RETRY_LIMIT : Nat := 10

/-- APIUtils.ITEMS_PER_PAGE. -/
def ITEMS_PER_PAGE : Nat := 100

/-- The rate-limit-relevant response headers.  Numeric headers are
    modelled already parsed (the source applies Python int to them);
    X-RateLimit-Remaining is compared as the literal string "0" in the
    source and stays a string here. -/
structure RateHeaders where
  retryAfter : Option Int
  remaining : Option String
  reset : Option Int
  resource : Option String
deriving DecidableEq, Repr

/-- The delays _handle_rate_limit falls back to when neither Retry-After
    nor an exhausted primary limit applies: 30 s when the resource is
    exactly "search" (the early return inside the try block), else 2 s
    when "search" occurs in the resource string, else 1 s. -/
def rlFallback (headers : RateHeaders) : Int :=
  if headers.resource = some "search" then 30
  else if strIn "search" (headers.resource.getD "") then 2
  else 1

/-- Embeds APIUtils._handle_rate_limit: Retry-After wins outright;
    otherwise, with X-RateLimit-Remaining equal to the string "0" and a
    reset epoch present, a primary-limit wait from X-RateLimit-Reset
    (floored at 30 for the search resource, at 1 otherwise); otherwise
    the fixed fallback delays. `now` stands for int(time.time()). -/
def handle_rate_limit (headers : RateHeaders) (now : Int) : Int :=
  match headers.retryAfter with
  | some w => w
  | none =>
    match headers.remaining, headers.reset with
    | some rem, some resetTime =>
      if rem = "0" then
        if headers.resource = some "search" then max 30 (resetTime - now)
        else max 1 (resetTime - now)
      else rlFallback headers
    | _, _ => rlFallback headers

/-- One HTTP response as classified by the status checks of
    github_api_request.  `β` is the parsed JSON body, `γ` the full
    header map returned to callers. -/
inductive HttpResp (β γ : Type) where
  | ok (body : β) (headers : γ)
  | notModified (headers : γ)
  | unauthorized
  | rateLimited (headers : RateHeaders)
  | otherStatus (code : Nat)
  | transportError
deriving DecidableEq

/-- The outcome of github_api_request: either the returned
    (body, headers) pair or the process exit taken on HTTP 401. -/
inductive ReqResult (β γ : Type) where
  | result (body : Option β) (headers : Option γ)
  | fatalExit
deriving DecidableEq

/-- The retry loop of github_api_request.  `remaining` is
    RETRY_LIMIT - retry_count, `attempts` counts requests issued so far;
    the transport is indexed by the attempt number.  Sleeping between
    attempts is a pure delay and is not part of the returned value. -/
def apiLoop {β γ : Type} (transport : Nat → HttpResp β γ) :
    Nat → Nat → ReqResult β γ × Nat
  | 0, attempts => (ReqResult.result none none, attempts)
  | r + 1, attempts =>
    match transport attempts with
    | HttpResp.ok b h => (ReqResult.result (some b) (some h), attempts + 1)
    | HttpResp.notModified h => (ReqResult.result none (some h), attempts + 1)
    | HttpResp.unauthorized => (ReqResult.fatalExit, attempts + 1)
    | HttpResp.rateLimited _ => apiLoop transport r (attempts + 1)
    | HttpResp.otherStatus _ => (ReqResult.result none none, attempts + 1)
    | HttpResp.transportError => (ReqResult.result none none, attempts + 1)

/-- Embeds APIUtils.github_api_request, returning its result together
    with the number of HTTP attempts made. -/
def github_api_request {β γ : Type} (transport : Nat → HttpResp β γ) :
    ReqResult β γ × Nat :=
  apiLoop transport RETRY_LIMIT 0

/-- The paginated upstream as fetch_all_pages observes it: the per-page
    fetch outcome (`none` for a failed github_api_request / worker
    request, already flattened from the raw-array or items-object shape),
    and the `rel=last` page number parsed from the first response's Link
    header (`none` when absent, in which case the source defaults to 1). -/
structure PageServer (ι : Type) where
  fetchPage : Nat → Option (List ι)
  linkLast : Option Nat

/-- Python truthiness of the limit argument: `if limit:` is false for
    both None and 0. -/
def limTruthy (limit : Option Nat) : Bool :=
  match limit with
  | some k => k != 0
  | none => false

/-- The loop over the remaining page numbers in fetch_all_pages.  A falsy
    page result (failed fetch or empty list) is skipped and pagination
    continues; a truthy one extends the accumulator and triggers the
    early limit check; at the end the accumulator is appended and the
    final slice applied.  The source fetches these pages in concurrent
    batches of five, but the gather preserves submission order and the
    per-page processing is sequential in page order, which this loop
    mirrors. -/
def fetchPagesAux {ι : Type} (srv : PageServer ι) (limit : Option Nat)
    (results : List ι) : List ι → List Nat → List ι
  | allResults, [] =>
    let results := results ++ allResults
    if limTruthy limit then results.take (limit.getD 0) else results
  | allResults, p :: rest =>
    match srv.fetchPage p with
    | none => fetchPagesAux srv limit results allResults rest
    | some items =>
      if items.isEmpty then fetchPagesAux srv limit results allResults rest
      else
        let allResults := allResults ++ items
        if limTruthy limit && decide (results.length + allResults.length ≥ limit.getD 0) then
          (results ++ allResults).take (limit.getD 0)
        else fetchPagesAux srv limit results allResults rest

/-- Embeds APIUtils.fetch_all_pages: fetch page 1 (returning [] when the
    body is falsy), early-return when the limit is already met, read the
    total page count from the Link header, then loop over pages
    2..total. -/
def fetch_all_pages {ι : Type} (srv : PageServer ι) (limit : Option Nat) : List ι :=
  match srv.fetchPage 1 with
  | none => []
  | some first =>
    if first.isEmpty then []
    else if limTruthy limit && decide (first.length ≥ limit.getD 0) then
      first.take (limit.getD 0)
    else
      let totalPages := srv.linkLast.getD 1
      if totalPages > 1 then
        fetchPagesAux srv limit first [] (List.range' 2 (totalPages - 1))
      else if limTruthy limit then first.take (limit.getD 0)
      else first

/-- The full item sequence the upstream holds, in provider order: the
    concatenation of pages 1..linkLast. -/
def upstreamConcat {ι : Type} (srv : PageServer ι) : List ι :=
  (List.range' 1 (srv.linkLast.getD 1)).flatMap (fun p => (srv.fetchPage p).getD [])

end GhFake.Api

namespace GhFake.Git

/-!
Embedding of GitCloneManager._fetch_single_repo_commits
(utils/github.py): the control paths of the try/except/finally around
the scratch clone, with the on-disk existence of the scratch directory
{username}_{repo_name}.git as the explicit state.
-/

/-- REMOVE_REPO from DEFAULT_CONFIG (utils/config.py): "True". -/
def REMOVE_REPO : Bool := true

/-- The outcome of one git.Repo.clone_from call.  On failure the scratch
    directory may or may not have been created before the error. -/
inductive CloneOutcome where
  | success
  | gitError (authFailed : Bool) (dirCreated : Bool)
  | otherError (dirCreated : Bool)
deriving DecidableEq, Repr

/-- Whether the scratch clone directory exists on disk. -/
structure DiskState where
  dirExists : Bool
deriving DecidableEq, Repr

/-- What _fetch_single_repo_commits hands back to its caller: a commit
    list, a failure record {repo_name, clone_url, reason}, or a
    propagated exception. -/
inductive FetchOutcome where
  | commits
  | failureRecord
  | raised
deriving DecidableEq, Repr

/-- The try body of _fetch_single_repo_commits, before the finally
    block: clone, then enumerate commits (any enumeration exception is
    caught and becomes a failure record); a GitCommandError with an
    authentication failure retries the clone without the token when a
    token was injected, any other clone exception propagates. -/
def fetchBody (clone1 : CloneOutcome) (enumOk : Bool)
    (hasToken urlDiffers : Bool) (retryClone : CloneOutcome)
    (retryEnumOk : Bool) : FetchOutcome × DiskState :=
  match clone1 with
  | CloneOutcome.success =>
    if enumOk then (FetchOutcome.commits, { dirExists := true })
    else (FetchOutcome.failureRecord, { dirExists := true })
  | CloneOutcome.gitError authFailed dirCreated =>
    if authFailed && hasToken && urlDiffers then
      match retryClone with
      | CloneOutcome.success =>
        if retryEnumOk then (FetchOutcome.commits, { dirExists := true })
        else (FetchOutcome.raised, { dirExists := true })
      | CloneOutcome.gitError _ retryDir =>
        (FetchOutcome.failureRecord, { dirExists := dirCreated || retryDir })
      | CloneOutcome.otherError retryDir =>
        (FetchOutcome.raised, { dirExists := dirCreated || retryDir })
    else (FetchOutcome.failureRecord, { dirExists := dirCreated })
  | CloneOutcome.otherError dirCreated =>
    (FetchOutcome.raised, { dirExists := dirCreated })

/-- The finally block: `if os.path.exists (repo_dir) and REMOVE_REPO:
    shutil.rmtree (repo_dir)`.  It runs on every exit path, including a
    propagating exception. -/
def finallyCleanup (st : DiskState) : DiskState :=
  if st.dirExists && REMOVE_REPO then { dirExists := false } else st

/-- Embeds _fetch_single_repo_commits end to end for the scratch-space
    question: the body followed unconditionally by the finally block. -/
def fetch_single_repo_commits (clone1 : CloneOutcome) (enumOk : Bool)
    (hasToken urlDiffers : Bool) (retryClone : CloneOutcome)
    (retryEnumOk : Bool) : FetchOutcome × DiskState :=
  let r := fetchBody clone1 enumOk hasToken urlDiffers retryClone retryEnumOk
  (r.1, finallyCleanup r.2)

end GhFake.Git

namespace GhFake.Categorize

/-!
Embedding of EmailCategorizer (modules/categorize_emails.py).  The
commits given to the categorizer are the dictionaries collected by
find_all_commits; on typed input (every commit dictionary carrying the
five required keys) that recursion returns exactly the concatenation of
the per-repo commit lists, which is how it is modelled here.  Python
sets are modelled as duplicate-free lists via insertNew.
-/

/-- One commit dictionary as find_all_commits accepts it: the five
    required fields (sha, author_name, author_email, committer_name,
    committer_email). -/
structure Commit where
  sha : String
  author_name : String
  author_email : String
  committer_name : String
  committer_email : String
deriving DecidableEq, Repr

/-- The two mutable sets of EmailCategorizer: owner_identities
    (lower-cased names) and owner_name_email_pairs. -/
structure CatState where
  owner_identities : List String
  owner_name_email_pairs : List (String × String)
deriving DecidableEq, Repr

/-- EmailCategorizer.__init__ on the per-repo contributor-login mapping
    (the dict input shape; the list-of-dicts shape collects the same
    union of lower-cased logins): collect every login lower-cased, then
    discard the (lower-cased) analyzed username. -/
def all_contributors (username : String)
    (contributors_data : List (String × List String)) : List String :=
  let collected := contributors_data.foldl
    (fun acc entry => entry.2.foldl (fun a c => insertNew (sLower c) a) acc) []
  collected.filter (fun c => c != sLower username)

/-- The username-in-email seeding rule for one name/email slot: when the
    (lower-cased) username occurs in the email, record the pair as
    confirmed owner and the lower-cased name as an owner identity. -/
def seedSlot (uname name email : String) (st : CatState) : CatState :=
  if strIn uname (sLower email) then
    { owner_identities := insertNew (sLower name) st.owner_identities,
      owner_name_email_pairs := insertNew (name, email) st.owner_name_email_pairs }
  else st

/-- The first loop of _identify_owner_details applied to one commit: the
    seeding rule on the author slot, then on the committer slot. -/
def seedStep (uname : String) (st : CatState) (cm : Commit) : CatState :=
  seedSlot uname cm.committer_name cm.committer_email
    (seedSlot uname cm.author_name cm.author_email st)

/-- The seeding pass of _identify_owner_details over all commits. -/
def seedPass (uname : String) (commits : List Commit) (st : CatState) : CatState :=
  commits.foldl (seedStep uname) st

/-- The name-already-known check of the saturation loop body for one
    name/email slot: when the lower-cased name is already an owner
    identity and the pair is new, append the pair and set the changed
    flag. -/
def satNameCheck (name email : String) (acc : CatState × Bool) : CatState × Bool :=
  if sLower name ∈ acc.1.owner_identities
      ∧ (name, email) ∉ acc.1.owner_name_email_pairs then
    ({ acc.1 with owner_name_email_pairs :=
        acc.1.owner_name_email_pairs ++ [(name, email)] }, true)
  else acc

/-- The email scan of the saturation loop body for one name/email slot:
    when the email matches any confirmed owner email (case-insensitively),
    add the lower-cased name to the identities.  The source iterates the
    pair set adding on every match; adding the same element repeatedly
    equals adding it once when any match exists.  The flag is untouched,
    exactly as in the source. -/
def satEmailCheck (name email : String) (st : CatState) : CatState :=
  if st.owner_name_email_pairs.any (fun p => sLower email == sLower p.2) then
    { st with owner_identities := insertNew (sLower name) st.owner_identities }
  else st

/-- The body of the saturation while-loop applied to one commit, in
    source order: author name-check, committer name-check, then the
    email scan for the author and committer slots. -/
def satStep (acc : CatState × Bool) (cm : Commit) : CatState × Bool :=
  let acc1 := satNameCheck cm.author_name cm.author_email acc
  let acc2 := satNameCheck cm.committer_name cm.committer_email acc1
  let st3 := satEmailCheck cm.author_name cm.author_email acc2.1
  let st4 := satEmailCheck cm.committer_name cm.committer_email st3
  (st4, acc2.2)

/-- One full pass of the saturation loop, starting from changed = False. -/
def satPass (commits : List Commit) (st : CatState) : CatState × Bool :=
  commits.foldl satStep (st, false)

/-- The while-changed loop.  The source loop terminates because each
    changing pass appends at least one new pair drawn from the at most
    2 * |commits| author/committer pairs, so 2 * |commits| + 1 passes
    always reach the fixed point; the fuel below is set to that bound. -/
def satLoop (commits : List Commit) : Nat → CatState → CatState
  | 0, st => st
  | fuel + 1, st =>
    if (satPass commits st).2 then satLoop commits fuel (satPass commits st).1
    else (satPass commits st).1

/-- Embeds _identify_owner_details: identities seeded with the
    lower-cased username, empty pair set, the username-in-email seeding
    pass, then the saturation loop. -/
def identify_owner_details (uname : String) (commits : List Commit) : CatState :=
  let st0 : CatState := { owner_identities := [uname], owner_name_email_pairs := [] }
  satLoop commits (2 * commits.length + 1) (seedPass uname commits st0)

/-- Embeds EmailCategorizer.is_contributor over the prepared
    all_contributors list (lower-cased, username removed).  The Python
    try around the noreply decoding cannot raise here because the
    `+`-split is guarded by the substring test. -/
def is_contributor (contribs : List String) (name email : String) : Bool :=
  let name_lower := sLower name
  let email_lower := sLower email
  if name_lower ∈ contribs then true
  else
    let email_username := splitHead '@' email_lower
    if email_username ∈ contribs then true
    else if strIn "@users.noreply.github.com" email_lower
        && (if strIn "+" email_lower then
              splitHead '@' (splitHead '+' (afterFirst '+' email_lower)) ∈ contribs
            else splitHead '@' email_lower ∈ contribs) then true
    else contribs.any (fun contributor =>
      strStarts contributor name_lower || strStarts name_lower contributor
      || (let name_no_spaces := remSpaces name_lower
          name_no_spaces == contributor || strIn contributor name_no_spaces)
      || strStarts contributor email_username || strStarts email_username contributor)

/-- The unique (name, email) pairs collected from author and committer
    fields, keeping only pairs whose name and email are truthy
    (non-empty). -/
def uniquePairs (commits : List Commit) : List (String × String) :=
  commits.foldl
    (fun acc cm =>
      let acc :=
        if cm.author_email != "" && cm.author_name != "" then
          insertNew (cm.author_name, cm.author_email) acc
        else acc
      if cm.committer_email != "" && cm.committer_name != "" then
        insertNew (cm.committer_name, cm.committer_email) acc
      else acc)
    []

/-- One entry of the categorized output: the dict {"email": ..,
    "name": ..}. -/
structure EmailEntry where
  email : String
  name : String
deriving DecidableEq, Repr

/-- The three output lists of categorize_emails. -/
structure Categorized where
  owner_emails : List EmailEntry
  contributors_emails : List EmailEntry
  other_emails : List EmailEntry
deriving DecidableEq, Repr

/-- Lexicographic character comparison by code point, modelling Python
    string ordering on these ASCII strings. -/
def chLt : List Char → List Char → Bool
  | [], [] => false
  | [], _ :: _ => true
  | _ :: _, [] => false
  | a :: as, b :: bs =>
    a.toNat < b.toNat || (a.toNat == b.toNat && chLt as bs)

/-- The sort key of categorize_emails: the tuple (email, name),
    non-strict comparison. -/
def entryLe (a b : EmailEntry) : Bool :=
  chLt a.email.data b.email.data
  || (a.email == b.email
      && (chLt a.name.data b.name.data || a.name == b.name))

/-- Insertion of one entry into a sorted list. -/
def sortInsert (x : EmailEntry) : List EmailEntry → List EmailEntry
  | [] => [x]
  | y :: ys => if entryLe x y then x :: y :: ys else y :: sortInsert x ys

/-- The final per-category sort by (email, name). -/
def sortEntries : List EmailEntry → List EmailEntry
  | [] => []
  | x :: xs => sortInsert x (sortEntries xs)

/-- The classification of one unique pair into the accumulating output:
    skip the GitHub system pair, owner wins first, then contributor,
    else other. -/
def classifyPair (st : CatState) (contribs : List String)
    (cat : Categorized) (pair : String × String) : Categorized :=
  if pair.2 == "noreply@github.com" && pair.1 == "GitHub" then cat
  else if pair ∈ st.owner_name_email_pairs then
    { cat with owner_emails := cat.owner_emails ++ [{ email := pair.2, name := pair.1 }] }
  else if is_contributor contribs pair.1 pair.2 then
    { cat with contributors_emails :=
        cat.contributors_emails ++ [{ email := pair.2, name := pair.1 }] }
  else
    { cat with other_emails := cat.other_emails ++ [{ email := pair.2, name := pair.1 }] }

/-- find_all_commits on the typed per-repo commit map: every value is a
    well-formed commit dictionary, so the recursion returns exactly the
    concatenation of the per-repo lists. -/
def findAllCommits (commits_data : List (String × List Commit)) : List Commit :=
  commits_data.foldl (fun acc entry => acc ++ entry.2) []

/-- The author and committer (name, email) pairs of one commit. -/
def commitPairs (cm : Commit) : List (String × String) :=
  [(cm.author_name, cm.author_email), (cm.committer_name, cm.committer_email)]

/-- Embeds EmailCategorizer.categorize_emails on the flattened commit
    collection: collect unique pairs, run _identify_owner_details,
    classify every pair, sort each category by (email, name). -/
def categorize_emails (username : String)
    (contributors_data : List (String × List String))
    (commits_data : List (String × List Commit)) : Categorized :=
  let uname := sLower username
  let contribs := all_contributors username contributors_data
  let all_commits := findAllCommits commits_data
  let pairs := uniquePairs all_commits
  let st := identify_owner_details uname all_commits
  let cat := pairs.foldl (classifyPair st contribs)
    { owner_emails := [], contributors_emails := [], other_emails := [] }
  { owner_emails := sortEntries cat.owner_emails,
    contributors_emails := sortEntries cat.contributors_emails,
    other_emails := sortEntries cat.other_emails }

end GhFake.Categorize

namespace GhFake.Analyze

/-!
Embedding of the external-contribution classification inside
GitHubProfileAnalyzer.generate_report (modules/analyze.py): candidate
external keys, the exclusion of repos already accounted for via pull
requests, the user's own SHA pool, and the duplicate-hash split.
-/

/-- One commit dictionary as the report stage reads it; a missing or
    falsy "sha" is modelled as the empty string. -/
structure RCommit where
  sha : String
deriving DecidableEq, Repr

/-- Python `"/" in key`. -/
def hasSlash (key : String) : Bool := strIn "/" key

/-- Python `key.split ("/")[0]`. -/
def keyOwner (key : String) : String := splitHead '/' key

/-- The candidate external repo keys: normalized keys of the form
    owner/repo whose owner segment is not the analyzed username. -/
def candidateExternalKeys (username : String)
    (commitsMap : List (String × List RCommit)) : List String :=
  (commitsMap.map (fun e => e.1)).filter
    (fun rk => hasSlash rk && sLower (keyOwner rk) != sLower username)

/-- The candidates minus the keys already present in
    pull_requests_to_other_repos. -/
def commitsToOtherReposKeys (username : String)
    (commitsMap : List (String × List RCommit)) (prKeys : List String) : List String :=
  (candidateExternalKeys username commitsMap).filter
    (fun rk => !(prKeys.contains rk))

/-- The SHA pool gathered from the user's own repositories (keys without
    a slash), keeping truthy shas only. -/
def ownCommitShas (commitsMap : List (String × List RCommit)) : List String :=
  commitsMap.foldl
    (fun acc entry =>
      if hasSlash entry.1 then acc
      else entry.2.foldl
        (fun a c => if c.sha != "" then insertNew c.sha a else a) acc)
    []

/-- Python dict lookup self.data["commits"].get (repo_key, []): the
    value of the first entry with the key (keys of a dict are unique). -/
def lookupCommits (commitsMap : List (String × List RCommit)) (rk : String) :
    List RCommit :=
  match commitsMap.find? (fun e => e.1 == rk) with
  | some e => e.2
  | none => []

/-- The per-repo SHA set comprehension, truthy shas only. -/
def shaSet (commits : List RCommit) : List String :=
  commits.foldl (fun a c => if c.sha != "" then insertNew c.sha a else a) []

/-- The classification loop of generate_report: for every key in
    commits_to_other_repos_keys with a non-empty SHA set, the key goes to
    duplicate_hashes_found when every SHA is already among the user's own
    SHAs, and to the commits_to_other_repos list otherwise.  Returns
    (duplicate_hashes_found, commits_to_other_repos). -/
def classifyExternalRepos (username : String)
    (commitsMap : List (String × List RCommit)) (prKeys : List String) :
    List String × List String :=
  (commitsToOtherReposKeys username commitsMap prKeys).foldl
    (fun acc rk =>
      let shas := shaSet (lookupCommits commitsMap rk)
      if shas.isEmpty then acc
      else if shas.all (fun s => (ownCommitShas commitsMap).contains s) then
        (acc.1 ++ [rk], acc.2)
      else (acc.1, acc.2 ++ [rk]))
    ([], [])

end GhFake.Analyze

namespace GhFake

/-!
Claim theorems.
-/

theorem apiLoop_rateLimited {β γ : Type} (transport : Nat → Api.HttpResp β γ)
    (hdrs : Nat → Api.RateHeaders)
    (h : ∀ n, transport n = Api.HttpResp.rateLimited (hdrs n)) :
    ∀ (r a : Nat), Api.apiLoop transport r a = (Api.ReqResult.result none none, a + r) := by
  intro r
  induction r with
  | zero => intro a; simp [Api.apiLoop]
  | succ n ih =>
    intro a
    simp only [Api.apiLoop, h a]
    rw [ih (a + 1)]
    congr 1
    omega

/-- C3: against a transport that always answers 429 (in particular with
    no Retry-After and no useful rate-limit headers),
    github_api_request makes exactly RETRY_LIMIT = 10 attempts and then
    returns (None, None); it neither loops nor raises. -/
theorem c3_retry_termination {β γ : Type} (transport : Nat → Api.HttpResp β γ)
    (hdrs : Nat → Api.RateHeaders)
    (h : ∀ n, transport n = Api.HttpResp.rateLimited (hdrs n)) :
    Api.github_api_request transport = (Api.ReqResult.result none none, Api.RETRY_LIMIT) := by
  unfold Api.github_api_request
  rw [apiLoop_rateLimited transport hdrs h]
  simp

/-- Witness for C3 at a concrete transport: ten attempts, (None, None). -/
theorem c3_retry_termination_witness :
    Api.github_api_request
        (fun _ => (Api.HttpResp.rateLimited (β := Unit) (γ := Unit)
          { retryAfter := none, remaining := none, reset := none, resource := none })) =
      (Api.ReqResult.result none none, 10) :=
  c3_retry_termination _
    (fun _ => { retryAfter := none, remaining := none, reset := none, resource := none })
    (fun _ => rfl)

/-- C9: whatever the clone, retry and enumeration outcomes, after
    _fetch_single_repo_commits finishes (returning commits, a failure
    record, or propagating an exception) the scratch clone directory
    {username}_{repo_name}.git no longer exists: the finally block
    removes it whenever present (REMOVE_REPO defaulting to True). -/
theorem c9_scratch_cleanup (clone1 : Git.CloneOutcome) (enumOk : Bool)
    (hasToken urlDiffers : Bool) (retryClone : Git.CloneOutcome) (retryEnumOk : Bool) :
    (Git.fetch_single_repo_commits clone1 enumOk hasToken urlDiffers
        retryClone retryEnumOk).2.dirExists = false := by
  unfold Git.fetch_single_repo_commits Git.finallyCleanup Git.REMOVE_REPO
  cases h : (Git.fetchBody clone1 enumOk hasToken urlDiffers retryClone retryEnumOk).2.dirExists
  · simp [h]
  · simp [h]

end GhFake

namespace GhFake

/-- Modelled from the spec: the wait the claim prescribes for the final
    429 branch, an exponential backoff starting at 1 second, capped at
    60 seconds, keyed by the retry attempt count. -/
def specExponentialBackoff (attempt : Nat) : Int :=
  min 60 (2 ^ (attempt - 1))

/-- C8 counterexample: for a 429 whose headers carry no Retry-After and
    no rate-limit fields, the code computes the constant 1-second wait
    on every attempt, while the claimed exponential backoff already
    demands 2 seconds at the second attempt. -/
theorem c8_backoff_counterexample :
    Api.handle_rate_limit
        { retryAfter := none, remaining := none, reset := none, resource := none } 0 = 1
    ∧ specExponentialBackoff 2 = 2
    ∧ (1 : Int) ≠ 2 := by
  refine ⟨rfl, rfl, by decide⟩

/-- C8 amended: Retry-After, when present, is returned exactly; with
    X-RateLimit-Remaining = "0" and a reset epoch the wait is
    max(1, reset - now) for ordinary resources and max(30, reset - now)
    for the search resource; otherwise the wait is a fixed fallback —
    30 s when the resource is exactly "search", 2 s when "search" occurs
    in the resource string, 1 s otherwise — independent of the retry
    attempt count (the function does not see it). -/
theorem c8_rate_limit_waits (h : Api.RateHeaders) (now : Int) :
    (∀ w, h.retryAfter = some w → Api.handle_rate_limit h now = w)
    ∧ (∀ r, h.retryAfter = none → h.remaining = some "0" → h.reset = some r →
        Api.handle_rate_limit h now =
          if h.resource = some "search" then max 30 (r - now) else max 1 (r - now))
    ∧ (h.retryAfter = none → ¬(h.remaining = some "0" ∧ h.reset ≠ none) →
        Api.handle_rate_limit h now =
          if h.resource = some "search" then 30
          else if strIn "search" (h.resource.getD "") then 2
          else 1) := by
  refine ⟨?_, ?_, ?_⟩
  · intro w hw
    unfold Api.handle_rate_limit
    rw [hw]
  · intro r hra hrem hres
    unfold Api.handle_rate_limit
    rw [hra, hrem, hres]
    simp
  · intro hra hnot
    unfold Api.handle_rate_limit Api.rlFallback
    rw [hra]
    rcases hrem : h.remaining with _ | s
    · rcases hres : h.reset with _ | r <;> simp
    · rcases hres : h.reset with _ | r
      · simp
      · have hs : s ≠ "0" := by
          intro hs0
          exact hnot ⟨by rw [hrem, hs0], by rw [hres]; exact Option.some_ne_none r⟩
        simp [hs]

/-- Witness for C8's amended statement: each branch evaluated at a
    concrete header set. -/
theorem c8_rate_limit_waits_witness :
    Api.handle_rate_limit
        { retryAfter := some 7, remaining := some "0", reset := some 100, resource := none } 0 = 7
    ∧ Api.handle_rate_limit
        { retryAfter := none, remaining := some "0", reset := some 100, resource := none } 40 = 60
    ∧ Api.handle_rate_limit
        { retryAfter := none, remaining := none, reset := none, resource := some "search" } 0 = 30 := by
  refine ⟨?_, ?_, ?_⟩
  · exact (c8_rate_limit_waits
      { retryAfter := some 7, remaining := some "0", reset := some 100, resource := none } 0).1
      7 rfl
  · have h := (c8_rate_limit_waits
      { retryAfter := none, remaining := some "0", reset := some 100, resource := none } 40).2.1
      100 rfl rfl rfl
    simpa using h
  · have h := (c8_rate_limit_waits
      { retryAfter := none, remaining := none, reset := none, resource := some "search" } 0).2.2
      rfl (by simp)
    simpa using h

end GhFake

namespace GhFake

theorem foldl_append_eq_flatMap {α β : Type} (g : α → List β) :
    ∀ (l : List α) (acc : List β),
      l.foldl (fun a x => a ++ g x) acc = acc ++ l.flatMap g := by
  intro l
  induction l with
  | nil => intro acc; simp
  | cons x xs ih => intro acc; simp [ih, List.append_assoc]

/-- The flag list one repo entry contributes in filter_by_creation_date. -/
def dateFlagOf (account_date : Int) (e : String × List Filter.RepoCommit) :
    List Filter.DateFlag :=
  match e.2.getLast? with
  | none => []
  | some firstCommit =>
    if firstCommit.author_date < account_date then
      [{ repo := e.1,
         reason := "account creation date later than the first commit to the repository",
         commit_date := firstCommit.author_date }]
    else []

theorem filter_by_creation_date_eq (data : List (String × List Filter.RepoCommit))
    (account_date : Int) :
    Filter.filter_by_creation_date data account_date =
      data.flatMap (dateFlagOf account_date) := by
  unfold Filter.filter_by_creation_date
  have hstep :
      (fun (acc : List Filter.DateFlag) (entry : String × List Filter.RepoCommit) =>
        match entry.2.getLast? with
        | none => acc
        | some firstCommit =>
          if firstCommit.author_date < account_date then
            acc ++ [{ repo := entry.1,
                      reason := "account creation date later than the first commit to the repository",
                      commit_date := firstCommit.author_date }]
          else acc) =
      fun acc entry => acc ++ dateFlagOf account_date entry := by
    funext acc entry
    unfold dateFlagOf
    cases h : entry.2.getLast? with
    | none => simp
    | some c =>
      by_cases hlt : c.author_date < account_date
      · simp [hlt]
      · simp [hlt]
  rw [hstep, foldl_append_eq_flatMap]
  simp

theorem mem_dateFlagOf {account_date : Int} {e : String × List Filter.RepoCommit}
    {f : Filter.DateFlag} :
    f ∈ dateFlagOf account_date e ↔
      ∃ firstCommit, e.2.getLast? = some firstCommit
        ∧ firstCommit.author_date < account_date
        ∧ f = { repo := e.1,
                reason := "account creation date later than the first commit to the repository",
                commit_date := firstCommit.author_date } := by
  unfold dateFlagOf
  cases h : e.2.getLast? with
  | none => simp
  | some c =>
    by_cases hlt : c.author_date < account_date
    · simp [hlt]
    · simp [hlt]

/-- C5: filter_by_creation_date flags a repository exactly when its
    earliest commit (the last list element) has an author date strictly
    earlier than the account creation date, emitting the record
    {repo, reason, commit_date}; a repository whose earliest commit date
    equals created_at is not flagged. -/
theorem c5_date_inversion (data : List (String × List Filter.RepoCommit))
    (account_date : Int) (f : Filter.DateFlag) :
    f ∈ Filter.filter_by_creation_date data account_date ↔
      ∃ e ∈ data, ∃ firstCommit, e.2.getLast? = some firstCommit
        ∧ firstCommit.author_date < account_date
        ∧ f = { repo := e.1,
                reason := "account creation date later than the first commit to the repository",
                commit_date := firstCommit.author_date } := by
  rw [filter_by_creation_date_eq, List.mem_flatMap]
  simp only [mem_dateFlagOf]

/-- Witness for C5: a repo with earliest commit at 5 and account created
    at 6 is flagged; evaluated at concrete data through the theorem. -/
theorem c5_date_inversion_witness :
    ({ repo := "r",
       reason := "account creation date later than the first commit to the repository",
       commit_date := 5 } : Filter.DateFlag) ∈
      Filter.filter_by_creation_date [("r", [{ author_date := 5, message := "m" }])] 6 :=
  (c5_date_inversion [("r", [{ author_date := 5, message := "m" }])] 6 _).mpr
    ⟨("r", [{ author_date := 5, message := "m" }]), by simp,
      { author_date := 5, message := "m" }, rfl, by decide, rfl⟩

end GhFake

namespace GhFake

/-- C6 evaluation at the failing input: because the source list lines
    from "Update README.md" onward lack commas and are fused by Python
    implicit string concatenation into a single element,
    "initial commit" is not a member of POPULAR_COMMIT_MESSAGES (it only
    occurs inside that fused element), _valid_target_search accepts it,
    and _process_repo_commits issues an outbound similarity-search query
    for it. -/
theorem c6_denylist_failing_input :
    Filter.valid_target_search "initial commit" = true
    ∧ "initial commit" ∉ Filter.POPULAR_COMMIT_MESSAGES
    ∧ Filter.POPULAR_COMMIT_MESSAGES.any (fun e => strIn "initial commit" e) = true
    ∧ Filter.issuedQueries [{ author_date := 0, message := "initial commit" }] =
        ["initial commit"] := by
  set_option maxRecDepth 4000 in
  refine ⟨by decide, by decide, by decide, by decide⟩

end GhFake

namespace GhFake

theorem lookupCommits_eq {map : List (String × List Analyze.RCommit)}
    {rk : String} {cl : List Analyze.RCommit}
    (hnd : (map.map (fun e => e.1)).Nodup) (hmem : (rk, cl) ∈ map) :
    Analyze.lookupCommits map rk = cl := by
  induction map with
  | nil => cases hmem
  | cons e es ih =>
    rcases List.mem_cons.mp hmem with h | h
    · subst h
      simp [Analyze.lookupCommits, List.find?]
    · have hne : e.1 ≠ rk := by
        intro hq
        have hrk : rk ∈ es.map (fun e => e.1) :=
          List.mem_map.mpr ⟨(rk, cl), h, rfl⟩
        have h0 := (List.nodup_cons.mp hnd).1
        exact h0 (by simpa [hq] using hrk)
      have hbeq : (e.1 == rk) = false := beq_eq_false_iff_ne.mpr hne
      have ih2 := ih (List.nodup_cons.mp hnd).2 h
      unfold Analyze.lookupCommits at ih2 ⊢
      simp only [List.find?, hbeq]
      exact ih2

/-- The contribution of one candidate key to duplicate_hashes_found. -/
def gDup (map : List (String × List Analyze.RCommit)) (rk : String) : List String :=
  if (Analyze.shaSet (Analyze.lookupCommits map rk)).isEmpty then []
  else if (Analyze.shaSet (Analyze.lookupCommits map rk)).all
      (fun s => (Analyze.ownCommitShas map).contains s) then [rk]
  else []

/-- The contribution of one candidate key to commits_to_other_repos. -/
def gOther (map : List (String × List Analyze.RCommit)) (rk : String) : List String :=
  if (Analyze.shaSet (Analyze.lookupCommits map rk)).isEmpty then []
  else if (Analyze.shaSet (Analyze.lookupCommits map rk)).all
      (fun s => (Analyze.ownCommitShas map).contains s) then []
  else [rk]

theorem classify_foldl_eq (map : List (String × List Analyze.RCommit)) :
    ∀ (ks : List String) (acc : List String × List String),
      ks.foldl
        (fun acc rk =>
          let shas := Analyze.shaSet (Analyze.lookupCommits map rk)
          if shas.isEmpty then acc
          else if shas.all (fun s => (Analyze.ownCommitShas map).contains s) then
            (acc.1 ++ [rk], acc.2)
          else (acc.1, acc.2 ++ [rk])) acc =
      (acc.1 ++ ks.flatMap (gDup map), acc.2 ++ ks.flatMap (gOther map)) := by
  intro ks
  induction ks with
  | nil => intro acc; simp
  | cons k ks ih =>
    intro acc
    rw [List.foldl_cons, ih]
    unfold gDup gOther
    by_cases h1 : Analyze.shaSet (Analyze.lookupCommits map k) = []
    · simp [h1]
    · by_cases h2 : ∀ x ∈ Analyze.shaSet (Analyze.lookupCommits map k),
        x ∈ Analyze.ownCommitShas map
      · simp [h1, if_pos h2]
      · simp [h1, if_neg h2]

theorem classifyExternalRepos_eq (username : String)
    (map : List (String × List Analyze.RCommit)) (prKeys : List String) :
    Analyze.classifyExternalRepos username map prKeys =
      ((Analyze.commitsToOtherReposKeys username map prKeys).flatMap (gDup map),
       (Analyze.commitsToOtherReposKeys username map prKeys).flatMap (gOther map)) := by
  unfold Analyze.classifyExternalRepos
  rw [classify_foldl_eq]
  simp

theorem mem_gDup {map : List (String × List Analyze.RCommit)} {rk k : String} :
    rk ∈ gDup map k ↔
      rk = k ∧ ¬(Analyze.shaSet (Analyze.lookupCommits map k)) = []
        ∧ ∀ x ∈ Analyze.shaSet (Analyze.lookupCommits map k),
            x ∈ Analyze.ownCommitShas map := by
  unfold gDup
  by_cases h1 : Analyze.shaSet (Analyze.lookupCommits map k) = []
  · simp [h1]
  · by_cases h2 : ∀ x ∈ Analyze.shaSet (Analyze.lookupCommits map k),
      x ∈ Analyze.ownCommitShas map
    · simp [h1, h2, and_comm]
    · simp [h1, h2]

theorem mem_gOther {map : List (String × List Analyze.RCommit)} {rk k : String} :
    rk ∈ gOther map k ↔
      rk = k ∧ ¬(Analyze.shaSet (Analyze.lookupCommits map k)) = []
        ∧ ¬∀ x ∈ Analyze.shaSet (Analyze.lookupCommits map k),
            x ∈ Analyze.ownCommitShas map := by
  unfold gOther
  by_cases h1 : Analyze.shaSet (Analyze.lookupCommits map k) = []
  · simp [h1]
  · by_cases h2 : ∀ x ∈ Analyze.shaSet (Analyze.lookupCommits map k),
      x ∈ Analyze.ownCommitShas map
    · simp [h1, h2, and_comm]
    · simp [h1, h2]

end GhFake

namespace GhFake

/-- C4 counterexample: the external key "x/r" has the non-empty SHA set
    s1 entirely contained in the user's own SHAs, yet because it is
    already listed under pull_requests_to_other_repos it is placed in
    neither duplicate_hashes_found nor commits_to_other_repos, against
    the claim that it must appear in duplicate_hashes_found. -/
theorem c4_duplicate_hash_counterexample :
    Analyze.hasSlash "x/r" = true
    ∧ sLower (Analyze.keyOwner "x/r") ≠ sLower "u"
    ∧ Analyze.shaSet (Analyze.lookupCommits
        [("own", [{ sha := "s1" }]), ("x/r", [{ sha := "s1" }])] "x/r") = ["s1"]
    ∧ Analyze.ownCommitShas
        [("own", [{ sha := "s1" }]), ("x/r", [{ sha := "s1" }])] = ["s1"]
    ∧ Analyze.classifyExternalRepos "u"
        [("own", [{ sha := "s1" }]), ("x/r", [{ sha := "s1" }])] ["x/r"] = ([], []) := by
  refine ⟨rfl, by decide, rfl, rfl, rfl⟩

/-- C4 amended: for every external repo key that is not already listed
    among the pull-request targets and has a non-empty SHA set, the key
    lands in duplicate_hashes_found exactly when every one of its SHAs
    already occurs among the user's own-repository SHAs, and in
    commits_to_other_repos exactly otherwise — never in both. -/
theorem c4_duplicate_hash_split (username : String)
    (map : List (String × List Analyze.RCommit)) (prKeys : List String)
    (rk : String) (cl : List Analyze.RCommit)
    (hnd : (map.map (fun e => e.1)).Nodup)
    (hmem : (rk, cl) ∈ map)
    (hslash : Analyze.hasSlash rk = true)
    (howner : sLower (Analyze.keyOwner rk) ≠ sLower username)
    (hpr : rk ∉ prKeys)
    (hsha : Analyze.shaSet cl ≠ []) :
    ((∀ s ∈ Analyze.shaSet cl, s ∈ Analyze.ownCommitShas map) →
        rk ∈ (Analyze.classifyExternalRepos username map prKeys).1
        ∧ rk ∉ (Analyze.classifyExternalRepos username map prKeys).2)
    ∧ ((∃ s ∈ Analyze.shaSet cl, s ∉ Analyze.ownCommitShas map) →
        rk ∈ (Analyze.classifyExternalRepos username map prKeys).2
        ∧ rk ∉ (Analyze.classifyExternalRepos username map prKeys).1) := by
  have hlook : Analyze.lookupCommits map rk = cl := lookupCommits_eq hnd hmem
  have hkey : rk ∈ Analyze.commitsToOtherReposKeys username map prKeys := by
    unfold Analyze.commitsToOtherReposKeys Analyze.candidateExternalKeys
    refine List.mem_filter.mpr ⟨List.mem_filter.mpr ⟨?_, ?_⟩, ?_⟩
    · exact List.mem_map.mpr ⟨(rk, cl), hmem, rfl⟩
    · simp [hslash, howner]
    · simp [hpr]
  rw [classifyExternalRepos_eq]
  constructor
  · intro hall
    constructor
    · exact List.mem_flatMap.mpr ⟨rk, hkey, mem_gDup.mpr ⟨rfl, by rw [hlook]; exact hsha,
        by rw [hlook]; exact hall⟩⟩
    · intro hcon
      rcases List.mem_flatMap.mp hcon with ⟨k, _, hk⟩
      rcases mem_gOther.mp hk with ⟨hrk, _, hnall⟩
      subst hrk
      rw [hlook] at hnall
      exact hnall hall
  · intro hex
    have hnall : ¬∀ s ∈ Analyze.shaSet cl, s ∈ Analyze.ownCommitShas map := by
      rcases hex with ⟨s, hs, hns⟩
      intro hall
      exact hns (hall s hs)
    constructor
    · exact List.mem_flatMap.mpr ⟨rk, hkey, mem_gOther.mpr ⟨rfl, by rw [hlook]; exact hsha,
        by rw [hlook]; exact hnall⟩⟩
    · intro hcon
      rcases List.mem_flatMap.mp hcon with ⟨k, _, hk⟩
      rcases mem_gDup.mp hk with ⟨hrk, _, hall⟩
      subst hrk
      rw [hlook] at hall
      exact hnall hall

/-- Witness for C4's amended statement: under key nodup and the branch
    hypotheses, "x/r" whose single SHA s1 matches an own-repo SHA goes to
    duplicate_hashes_found, while "y/q" with fresh SHA s2 goes to
    commits_to_other_repos. -/
theorem c4_duplicate_hash_split_witness :
    ("x/r" ∈ (Analyze.classifyExternalRepos "u"
        [("own", [{ sha := "s1" }]), ("x/r", [{ sha := "s1" }]),
         ("y/q", [{ sha := "s2" }])] []).1)
    ∧ ("y/q" ∈ (Analyze.classifyExternalRepos "u"
        [("own", [{ sha := "s1" }]), ("x/r", [{ sha := "s1" }]),
         ("y/q", [{ sha := "s2" }])] []).2) := by
  constructor
  · exact ((c4_duplicate_hash_split "u"
      [("own", [{ sha := "s1" }]), ("x/r", [{ sha := "s1" }]), ("y/q", [{ sha := "s2" }])]
      [] "x/r" [{ sha := "s1" }] (by decide) (by decide) (by decide) (by decide)
      (by decide) (by decide)).1 (by decide)).1
  · exact ((c4_duplicate_hash_split "u"
      [("own", [{ sha := "s1" }]), ("x/r", [{ sha := "s1" }]), ("y/q", [{ sha := "s2" }])]
      [] "y/q" [{ sha := "s2" }] (by decide) (by decide) (by decide) (by decide)
      (by decide) (by decide)).2 ⟨"s2", by decide, by decide⟩).1

end GhFake

namespace GhFake

theorem fetchPagesAux_length_le {ι : Type} (srv : Api.PageServer ι) (k : Nat)
    (hk : 0 < k) :
    ∀ (ps : List Nat) (results allResults : List ι),
      (Api.fetchPagesAux srv (some k) results allResults ps).length ≤ k := by
  intro ps
  induction ps with
  | nil =>
    intro results allResults
    have hlt : Api.limTruthy (some k) = true := by
      simp [Api.limTruthy]; omega
    simp [Api.fetchPagesAux, hlt]
  | cons p rest ih =>
    intro results allResults
    unfold Api.fetchPagesAux
    cases hp : srv.fetchPage p with
    | none => exact ih results allResults
    | some items =>
      by_cases hie : items.isEmpty
      · simp only [hie, if_true]
        exact ih results allResults
      · simp only [hie, if_false, Bool.false_eq_true]
        split
        · simp
        · exact ih results (allResults ++ items)

theorem fetchPagesAux_all_success {ι : Type} (srv : Api.PageServer ι) (k : Nat)
    (hk : 0 < k) :
    ∀ (ps : List Nat) (results allResults : List ι),
      (∀ p ∈ ps, ∃ xs, srv.fetchPage p = some xs) →
      Api.fetchPagesAux srv (some k) results allResults ps =
        ((results ++ allResults) ++
          ps.flatMap (fun p => (srv.fetchPage p).getD [])).take k := by
  intro ps
  induction ps with
  | nil =>
    intro results allResults _
    have hlt : Api.limTruthy (some k) = true := by
      simp [Api.limTruthy]; omega
    simp [Api.fetchPagesAux, hlt]
  | cons p rest ih =>
    intro results allResults hsucc
    obtain ⟨xs, hxs⟩ := hsucc p (List.mem_cons_self p rest)
    have hrest : ∀ q ∈ rest, ∃ ys, srv.fetchPage q = some ys :=
      fun q hq => hsucc q (List.mem_cons_of_mem p hq)
    unfold Api.fetchPagesAux
    rw [hxs]
    by_cases hie : xs.isEmpty
    · have hxsnil : xs = [] := List.isEmpty_iff.mp hie
      subst hxsnil
      simp only [List.isEmpty_nil, if_true]
      rw [ih results allResults hrest]
      simp [hxs]
    · simp only [hie, if_false, Bool.false_eq_true]
      split
      · rename_i hcond
        have hlen : k ≤ (results ++ (allResults ++ xs)).length := by
          simp only [Bool.and_eq_true, decide_eq_true_eq, Option.getD_some,
            List.length_append] at hcond
          simp [List.length_append]
          omega
        rw [List.flatMap_cons, hxs]
        simp only [Option.getD_some]
        rw [show (results ++ allResults) ++ (xs ++ rest.flatMap (fun p => (srv.fetchPage p).getD [])) =
              (results ++ (allResults ++ xs)) ++ rest.flatMap (fun p => (srv.fetchPage p).getD [])
            by simp [List.append_assoc]]
        rw [List.take_append_of_le_length hlen]
      · rw [ih results (allResults ++ xs) hrest, List.flatMap_cons, hxs]
        simp [List.append_assoc]

theorem fetchPagesAux_no_limit {ι : Type} (srv : Api.PageServer ι) :
    ∀ (ps : List Nat) (results allResults : List ι),
      Api.fetchPagesAux srv none results allResults ps =
        (results ++ allResults) ++
          ps.flatMap (fun p => (srv.fetchPage p).getD []) := by
  intro ps
  induction ps with
  | nil =>
    intro results allResults
    simp [Api.fetchPagesAux, Api.limTruthy]
  | cons p rest ih =>
    intro results allResults
    unfold Api.fetchPagesAux
    cases hp : srv.fetchPage p with
    | none =>
      rw [ih results allResults]
      simp [List.flatMap_cons, hp]
    | some xs =>
      by_cases hie : xs.isEmpty
      · have hxsnil : xs = [] := List.isEmpty_iff.mp hie
        subst hxsnil
        simp only [List.isEmpty_nil, if_true]
        rw [ih results allResults]
        simp [List.flatMap_cons, hp]
      · simp only [hie, if_false, Bool.false_eq_true, Api.limTruthy, Bool.false_and]
        rw [ih results (allResults ++ xs)]
        simp [List.flatMap_cons, hp, List.append_assoc]

end GhFake

namespace GhFake

/-- C2 counterexample: with limit = 0 the Python guard `if limit:` is
    false, so fetch_all_pages ignores the limit entirely and returns the
    whole first page — more than 0 items — refuting "at most k items for
    every limit k". -/
theorem c2_pagination_counterexample :
    Api.fetch_all_pages
        (⟨fun p => if p = 1 then some ["a"] else none, none⟩ : Api.PageServer String)
        (some 0) = ["a"]
    ∧ ¬((Api.fetch_all_pages
        (⟨fun p => if p = 1 then some ["a"] else none, none⟩ : Api.PageServer String)
        (some 0)).length ≤ 0) := by
  exact ⟨by decide, by decide⟩

/-- C2 amended: for every positive limit k, fetch_all_pages returns at
    most k items; and when every page up to the Link-header total
    succeeds, the first page is non-empty, and the upstream holds at
    least k items, it returns exactly the first k items in provider
    order. -/
theorem c2_pagination_limit {ι : Type} (srv : Api.PageServer ι) (k : Nat)
    (hk : 0 < k) :
    (Api.fetch_all_pages srv (some k)).length ≤ k
    ∧ ((∀ p ∈ List.range' 1 (srv.linkLast.getD 1), ∃ xs, srv.fetchPage p = some xs) →
        (∀ xs, srv.fetchPage 1 = some xs → xs ≠ []) →
        k ≤ (Api.upstreamConcat srv).length →
        Api.fetch_all_pages srv (some k) = (Api.upstreamConcat srv).take k
        ∧ (Api.fetch_all_pages srv (some k)).length = k) := by
  have hlt : Api.limTruthy (some k) = true := by
    simp [Api.limTruthy]; omega
  constructor
  · unfold Api.fetch_all_pages
    cases h1 : srv.fetchPage 1 with
    | none => simp
    | some first =>
      by_cases hie : first.isEmpty
      · simp [hie]
      · simp only [hie, if_false, Bool.false_eq_true]
        split
        · simp
        · split
          · exact fetchPagesAux_length_le srv k hk _ _ _
          · simp [hlt]
  · intro hsucc hne1 htot
    rcases hN : srv.linkLast.getD 1 with _ | m
    · exfalso
      have : Api.upstreamConcat srv = [] := by
        unfold Api.upstreamConcat
        rw [hN]
        simp
      rw [this] at htot
      simp at htot
      omega
    · obtain ⟨xs1, h1⟩ := hsucc 1 (by rw [hN]; exact List.mem_cons_self 1 _)
      have hxne : xs1 ≠ [] := hne1 xs1 h1
      have hupstream : Api.upstreamConcat srv =
          xs1 ++ (List.range' 2 m).flatMap (fun p => (srv.fetchPage p).getD []) := by
        unfold Api.upstreamConcat
        rw [hN]
        rw [show List.range' 1 (m + 1) = 1 :: List.range' 2 m from rfl]
        rw [List.flatMap_cons, h1]
        rfl
      have heq : Api.fetch_all_pages srv (some k) = (Api.upstreamConcat srv).take k := by
        unfold Api.fetch_all_pages
        rw [h1]
        have hie : xs1.isEmpty = false := by
          cases xs1
          · exact absurd rfl hxne
          · rfl
        simp only [hie, if_false, Bool.false_eq_true]
        by_cases hbig : xs1.length ≥ k
        · rw [if_pos (by simp [hlt, hbig])]
          rw [hupstream, List.take_append_of_le_length hbig]
          rfl
        · rw [if_neg (by simp [hlt]; omega)]
          rw [hN]
          rcases Nat.eq_zero_or_pos m with hm | hm
          · subst hm
            rw [if_neg (by omega)]
            simp only [hlt, if_true]
            rw [hupstream]
            simp [List.range']
          · rw [if_pos (by omega)]
            have hsucc2 : ∀ p ∈ List.range' 2 (m + 1 - 1), ∃ xs, srv.fetchPage p = some xs := by
              intro p hp
              refine hsucc p ?_
              rw [hN, show List.range' 1 (m + 1) = 1 :: List.range' 2 m from rfl]
              exact List.mem_cons_of_mem 1 (by simpa using hp)
            rw [fetchPagesAux_all_success srv k hk _ _ _ hsucc2]
            rw [hupstream]
            simp
      refine ⟨heq, ?_⟩
      rw [heq, List.length_take]
      omega

/-- Definition of the concrete two-page upstream used to witness C2. -/
def c2WitnessSrv : Api.PageServer String :=
  ⟨fun p => if p = 1 then some ["a", "b"] else if p = 2 then some ["c", "d"] else none,
   some 2⟩

/-- Witness for C2's amended statement: two full pages, limit 3, result
    exactly the first three items in provider order. -/
theorem c2_pagination_limit_witness :
    Api.fetch_all_pages c2WitnessSrv (some 3) = ["a", "b", "c"] := by
  have hs : ∀ p ∈ List.range' 1 (c2WitnessSrv.linkLast.getD 1),
      ∃ xs, c2WitnessSrv.fetchPage p = some xs := by
    intro p hp
    have hr : List.range' 1 (c2WitnessSrv.linkLast.getD 1) = [1, 2] := rfl
    rw [hr] at hp
    simp at hp
    rcases hp with h | h <;> subst h
    · exact ⟨["a", "b"], rfl⟩
    · exact ⟨["c", "d"], rfl⟩
  have hne : ∀ xs, c2WitnessSrv.fetchPage 1 = some xs → xs ≠ [] := by
    intro xs hxs
    have h0 : c2WitnessSrv.fetchPage 1 = some ["a", "b"] := rfl
    rw [h0] at hxs
    injection hxs with h2
    rw [← h2]
    decide
  have htot : 3 ≤ (Api.upstreamConcat c2WitnessSrv).length := by decide
  have h := ((c2_pagination_limit c2WitnessSrv 3 (by decide)).2 hs hne htot).1
  rw [h]
  decide

/-- Definition of the concrete upstream used for C7: page 2 fails while
    pages 1 and 3 succeed. -/
def c7Srv : Api.PageServer String :=
  ⟨fun p => if p = 1 then some ["a"] else if p = 3 then some ["c"] else none, some 3⟩

/-- C7 counterexample: when page 2 of 3 fails, fetch_all_pages does not
    stop; it skips the failed page and still appends page 3, returning
    ["a", "c"] instead of the claimed prefix ["a"] accumulated before
    the failure. -/
theorem c7_stop_on_failure_counterexample :
    Api.fetch_all_pages c7Srv none = ["a", "c"]
    ∧ (["a", "c"] : List String) ≠ ["a"] := by
  exact ⟨by decide, by decide⟩

/-- C7 amended: with no limit and a truthy first page, a failed page
    contributes no items but pagination continues: the result is the
    concatenation, in page order, of the items of every successful page
    up to the Link-header total, and no error is raised (the function is
    total). -/
theorem c7_failed_page_behavior {ι : Type} (srv : Api.PageServer ι) (xs1 : List ι)
    (h1 : srv.fetchPage 1 = some xs1) (hne : xs1 ≠ []) :
    Api.fetch_all_pages srv none =
      xs1 ++ (List.range' 2 (srv.linkLast.getD 1 - 1)).flatMap
        (fun p => (srv.fetchPage p).getD []) := by
  unfold Api.fetch_all_pages
  rw [h1]
  have hie : xs1.isEmpty = false := by
    cases xs1
    · exact absurd rfl hne
    · rfl
  simp only [hie, if_false, Bool.false_eq_true, Api.limTruthy, Bool.false_and]
  rcases hN : srv.linkLast.getD 1 with _ | m
  · simp [List.range']
  · rcases Nat.eq_zero_or_pos m with hm | hm
    · subst hm
      simp [List.range']
    · rw [if_pos (by omega)]
      rw [fetchPagesAux_no_limit srv _ _ _]
      simp

/-- Witness for C7's amended statement applied to the three-page server
    with a failing middle page. -/
theorem c7_failed_page_behavior_witness :
    Api.fetch_all_pages c7Srv none = ["a", "c"] := by
  have h := c7_failed_page_behavior c7Srv ["a"] rfl (by decide)
  rw [h]
  decide

end GhFake


namespace GhFake.Categorize

theorem seedSlot_pairs_mono (uname name email : String) (st : CatState) :
    st.owner_name_email_pairs ⊆ (seedSlot uname name email st).owner_name_email_pairs := by
  unfold seedSlot
  intro x hx
  split
  · exact mem_insertNew_of_mem _ hx
  · exact hx

theorem seedSlot_ids_mono (uname name email : String) (st : CatState) :
    st.owner_identities ⊆ (seedSlot uname name email st).owner_identities := by
  unfold seedSlot
  intro x hx
  split
  · exact mem_insertNew_of_mem _ hx
  · exact hx

theorem seedSlot_hits (uname name email : String) (st : CatState)
    (hin : strIn uname (sLower email) = true) :
    (name, email) ∈ (seedSlot uname name email st).owner_name_email_pairs
    ∧ sLower name ∈ (seedSlot uname name email st).owner_identities := by
  unfold seedSlot
  rw [if_pos hin]
  exact ⟨mem_insertNew_self _ _, mem_insertNew_self _ _⟩

theorem seedStep_pairs_mono (uname : String) (st : CatState) (cm : Commit) :
    st.owner_name_email_pairs ⊆ (seedStep uname st cm).owner_name_email_pairs := by
  unfold seedStep
  exact fun x hx => seedSlot_pairs_mono _ _ _ _ (seedSlot_pairs_mono _ _ _ _ hx)

theorem seedStep_ids_mono (uname : String) (st : CatState) (cm : Commit) :
    st.owner_identities ⊆ (seedStep uname st cm).owner_identities := by
  unfold seedStep
  exact fun x hx => seedSlot_ids_mono _ _ _ _ (seedSlot_ids_mono _ _ _ _ hx)

theorem seedStep_hits (uname : String) (st : CatState) (cm : Commit)
    {n e : String} (hp : (n, e) ∈ commitPairs cm)
    (hin : strIn uname (sLower e) = true) :
    (n, e) ∈ (seedStep uname st cm).owner_name_email_pairs
    ∧ sLower n ∈ (seedStep uname st cm).owner_identities := by
  unfold commitPairs at hp
  simp only [List.mem_cons, List.mem_singleton, List.not_mem_nil, or_false] at hp
  unfold seedStep
  rcases hp with hp | hp
  · have hn : n = cm.author_name := (Prod.ext_iff.mp hp).1
    have he : e = cm.author_email := (Prod.ext_iff.mp hp).2
    subst hn; subst he
    have h := seedSlot_hits uname cm.author_name cm.author_email st hin
    exact ⟨seedSlot_pairs_mono _ _ _ _ h.1, seedSlot_ids_mono _ _ _ _ h.2⟩
  · have hn : n = cm.committer_name := (Prod.ext_iff.mp hp).1
    have he : e = cm.committer_email := (Prod.ext_iff.mp hp).2
    subst hn; subst he
    exact seedSlot_hits uname cm.committer_name cm.committer_email _ hin

theorem seedPass_pairs_mono (uname : String) (commits : List Commit) :
    ∀ (st : CatState),
      st.owner_name_email_pairs ⊆ (seedPass uname commits st).owner_name_email_pairs := by
  induction commits with
  | nil => intro st x hx; exact hx
  | cons cm rest ih =>
    intro st x hx
    exact ih (seedStep uname st cm) (seedStep_pairs_mono uname st cm hx)

theorem seedPass_ids_mono (uname : String) (commits : List Commit) :
    ∀ (st : CatState),
      st.owner_identities ⊆ (seedPass uname commits st).owner_identities := by
  induction commits with
  | nil => intro st x hx; exact hx
  | cons cm rest ih =>
    intro st x hx
    exact ih (seedStep uname st cm) (seedStep_ids_mono uname st cm hx)

theorem seedPass_hits (uname : String) (commits : List Commit)
    {cm : Commit} {n e : String} (hcm : cm ∈ commits)
    (hp : (n, e) ∈ commitPairs cm) (hin : strIn uname (sLower e) = true) :
    ∀ (st : CatState),
      (n, e) ∈ (seedPass uname commits st).owner_name_email_pairs
      ∧ sLower n ∈ (seedPass uname commits st).owner_identities := by
  induction commits with
  | nil => cases hcm
  | cons c rest ih =>
    intro st
    rcases List.mem_cons.mp hcm with h | h
    · subst h
      have h0 := seedStep_hits uname st cm hp hin
      exact ⟨seedPass_pairs_mono uname rest _ h0.1,
             seedPass_ids_mono uname rest _ h0.2⟩
    · exact ih h (seedStep uname st c)

end GhFake.Categorize

namespace GhFake.Categorize

theorem satNameCheck_pairs_mono (name email : String) (acc : CatState × Bool) :
    acc.1.owner_name_email_pairs ⊆ (satNameCheck name email acc).1.owner_name_email_pairs := by
  unfold satNameCheck
  intro x hx
  split
  · simp only [List.mem_append]
    exact Or.inl hx
  · exact hx

theorem satNameCheck_ids_eq (name email : String) (acc : CatState × Bool) :
    (satNameCheck name email acc).1.owner_identities = acc.1.owner_identities := by
  unfold satNameCheck
  split <;> rfl

theorem satNameCheck_hits (name email : String) (acc : CatState × Bool)
    (hid : sLower name ∈ acc.1.owner_identities) :
    (name, email) ∈ (satNameCheck name email acc).1.owner_name_email_pairs := by
  unfold satNameCheck
  by_cases hmem : (name, email) ∈ acc.1.owner_name_email_pairs
  · split
    · simp only [List.mem_append]
      exact Or.inl hmem
    · exact hmem
  · rw [if_pos ⟨hid, hmem⟩]
    simp

theorem satEmailCheck_pairs_eq (name email : String) (st : CatState) :
    (satEmailCheck name email st).owner_name_email_pairs = st.owner_name_email_pairs := by
  unfold satEmailCheck
  split <;> rfl

theorem satEmailCheck_ids_mono (name email : String) (st : CatState) :
    st.owner_identities ⊆ (satEmailCheck name email st).owner_identities := by
  unfold satEmailCheck
  intro x hx
  split
  · exact mem_insertNew_of_mem _ hx
  · exact hx

theorem satStep_pairs_mono (acc : CatState × Bool) (cm : Commit) :
    acc.1.owner_name_email_pairs ⊆ (satStep acc cm).1.owner_name_email_pairs := by
  unfold satStep
  intro x hx
  simp only [satEmailCheck_pairs_eq]
  exact satNameCheck_pairs_mono _ _ _ (satNameCheck_pairs_mono _ _ _ hx)

theorem satStep_ids_mono (acc : CatState × Bool) (cm : Commit) :
    acc.1.owner_identities ⊆ (satStep acc cm).1.owner_identities := by
  unfold satStep
  intro x hx
  refine satEmailCheck_ids_mono _ _ _ (satEmailCheck_ids_mono _ _ _ ?_)
  rw [satNameCheck_ids_eq, satNameCheck_ids_eq]
  exact hx

theorem satStep_hits (acc : CatState × Bool) (cm : Commit) {n e : String}
    (hp : (n, e) ∈ commitPairs cm) (hid : sLower n ∈ acc.1.owner_identities) :
    (n, e) ∈ (satStep acc cm).1.owner_name_email_pairs := by
  unfold commitPairs at hp
  simp only [List.mem_cons, List.mem_singleton, List.not_mem_nil, or_false] at hp
  unfold satStep
  simp only [satEmailCheck_pairs_eq]
  rcases hp with hp | hp
  · have hn : n = cm.author_name := (Prod.ext_iff.mp hp).1
    have he : e = cm.author_email := (Prod.ext_iff.mp hp).2
    subst hn; subst he
    exact satNameCheck_pairs_mono _ _ _ (satNameCheck_hits _ _ _ hid)
  · have hn : n = cm.committer_name := (Prod.ext_iff.mp hp).1
    have he : e = cm.committer_email := (Prod.ext_iff.mp hp).2
    subst hn; subst he
    refine satNameCheck_hits _ _ _ ?_
    rw [satNameCheck_ids_eq]
    exact hid

theorem satPass_pairs_mono_fold (commits : List Commit) :
    ∀ (acc : CatState × Bool),
      acc.1.owner_name_email_pairs ⊆ (commits.foldl satStep acc).1.owner_name_email_pairs := by
  induction commits with
  | nil => intro acc x hx; exact hx
  | cons cm rest ih =>
    intro acc x hx
    exact ih (satStep acc cm) (satStep_pairs_mono acc cm hx)

theorem satPass_ids_mono_fold (commits : List Commit) :
    ∀ (acc : CatState × Bool),
      acc.1.owner_identities ⊆ (commits.foldl satStep acc).1.owner_identities := by
  induction commits with
  | nil => intro acc x hx; exact hx
  | cons cm rest ih =>
    intro acc x hx
    exact ih (satStep acc cm) (satStep_ids_mono acc cm hx)

theorem satPass_hits_fold (commits : List Commit) {cm : Commit} {n e : String}
    (hcm : cm ∈ commits) (hp : (n, e) ∈ commitPairs cm) :
    ∀ (acc : CatState × Bool), sLower n ∈ acc.1.owner_identities →
      (n, e) ∈ (commits.foldl satStep acc).1.owner_name_email_pairs := by
  induction commits with
  | nil => cases hcm
  | cons c rest ih =>
    intro acc hid
    rcases List.mem_cons.mp hcm with h | h
    · subst h
      exact satPass_pairs_mono_fold rest _ (satStep_hits acc cm hp hid)
    · exact ih h (satStep acc c) (satStep_ids_mono acc c hid)

theorem satPass_pairs_mono (commits : List Commit) (st : CatState) :
    st.owner_name_email_pairs ⊆ (satPass commits st).1.owner_name_email_pairs :=
  satPass_pairs_mono_fold commits (st, false)

theorem satPass_hits (commits : List Commit) {cm : Commit} {n e : String}
    (hcm : cm ∈ commits) (hp : (n, e) ∈ commitPairs cm) (st : CatState)
    (hid : sLower n ∈ st.owner_identities) :
    (n, e) ∈ (satPass commits st).1.owner_name_email_pairs :=
  satPass_hits_fold commits hcm hp (st, false) hid

theorem satLoop_pairs_mono (commits : List Commit) :
    ∀ (fuel : Nat) (st : CatState),
      st.owner_name_email_pairs ⊆ (satLoop commits fuel st).owner_name_email_pairs := by
  intro fuel
  induction fuel with
  | zero => intro st x hx; exact hx
  | succ f ih =>
    intro st x hx
    unfold satLoop
    split
    · exact ih _ (satPass_pairs_mono commits st hx)
    · exact satPass_pairs_mono commits st hx

theorem satLoop_after_first (commits : List Commit) (fuel : Nat) (st : CatState) :
    (satPass commits st).1.owner_name_email_pairs ⊆
      (satLoop commits (fuel + 1) st).owner_name_email_pairs := by
  unfold satLoop
  split
  · exact satLoop_pairs_mono commits fuel _
  · exact fun x hx => hx

theorem identify_owner_details_seed_pairs (uname : String) (commits : List Commit)
    {cm : Commit} {n e : String} (hcm : cm ∈ commits)
    (hp : (n, e) ∈ commitPairs cm) (hin : strIn uname (sLower e) = true) :
    (n, e) ∈ (identify_owner_details uname commits).owner_name_email_pairs := by
  unfold identify_owner_details
  refine satLoop_pairs_mono commits _ _ ?_
  exact (seedPass_hits uname commits hcm hp hin _).1

theorem identify_owner_details_closure_pairs (uname : String) (commits : List Commit)
    {cmSeed cm2 : Commit} {b eSeed e2 : String}
    (hcmSeed : cmSeed ∈ commits) (hpSeed : (b, eSeed) ∈ commitPairs cmSeed)
    (hinSeed : strIn uname (sLower eSeed) = true)
    (hcm2 : cm2 ∈ commits) (hp2 : (b, e2) ∈ commitPairs cm2) :
    (b, e2) ∈ (identify_owner_details uname commits).owner_name_email_pairs := by
  unfold identify_owner_details
  rw [show 2 * commits.length + 1 = 2 * commits.length + 1 from rfl]
  refine satLoop_after_first commits (2 * commits.length)
    (seedPass uname commits { owner_identities := [uname], owner_name_email_pairs := [] }) ?_
  refine satPass_hits commits hcm2 hp2 _ ?_
  exact (seedPass_hits uname commits hcmSeed hpSeed hinSeed _).2

end GhFake.Categorize

namespace GhFake.Categorize

theorem uniquePairs_step_mono (acc : List (String × String)) (cm : Commit) :
    acc ⊆
      (if cm.committer_email != "" && cm.committer_name != "" then
        insertNew (cm.committer_name, cm.committer_email)
          (if cm.author_email != "" && cm.author_name != "" then
            insertNew (cm.author_name, cm.author_email) acc
          else acc)
      else
        (if cm.author_email != "" && cm.author_name != "" then
          insertNew (cm.author_name, cm.author_email) acc
        else acc)) := by
  intro x hx
  split
  · split
    · exact mem_insertNew_of_mem _ (mem_insertNew_of_mem _ hx)
    · exact mem_insertNew_of_mem _ hx
  · split
    · exact mem_insertNew_of_mem _ hx
    · exact hx

theorem uniquePairs_fold_mono (commits : List Commit) :
    ∀ (acc : List (String × String)),
      acc ⊆ commits.foldl
        (fun acc cm =>
          let acc :=
            if cm.author_email != "" && cm.author_name != "" then
              insertNew (cm.author_name, cm.author_email) acc
            else acc
          if cm.committer_email != "" && cm.committer_name != "" then
            insertNew (cm.committer_name, cm.committer_email) acc
          else acc) acc := by
  induction commits with
  | nil => intro acc x hx; exact hx
  | cons c rest ih =>
    intro acc x hx
    rw [List.foldl_cons]
    exact ih _ (uniquePairs_step_mono acc c hx)

theorem uniquePairs_mem_fold (commits : List Commit) {cm : Commit} {n e : String}
    (hcm : cm ∈ commits) (hp : (n, e) ∈ commitPairs cm)
    (hn : n ≠ "") (he : e ≠ "") :
    ∀ (acc : List (String × String)),
      (n, e) ∈ commits.foldl
        (fun acc cm =>
          let acc :=
            if cm.author_email != "" && cm.author_name != "" then
              insertNew (cm.author_name, cm.author_email) acc
            else acc
          if cm.committer_email != "" && cm.committer_name != "" then
            insertNew (cm.committer_name, cm.committer_email) acc
          else acc) acc := by
  induction commits with
  | nil => cases hcm
  | cons c rest ih =>
    intro acc
    rcases List.mem_cons.mp hcm with h | h
    · subst h
      rw [List.foldl_cons]
      refine uniquePairs_fold_mono rest _ ?_
      unfold commitPairs at hp
      simp only [List.mem_cons, List.mem_singleton, List.not_mem_nil, or_false] at hp
      rcases hp with hp | hp
      · have h1 : n = cm.author_name := (Prod.ext_iff.mp hp).1
        have h2 : e = cm.author_email := (Prod.ext_iff.mp hp).2
        subst h1; subst h2
        have hcond : (cm.author_email != "" && cm.author_name != "") = true := by
          simp [bne_iff_ne, hn, he]
        simp only [hcond, if_true]
        split
        · exact mem_insertNew_of_mem _ (mem_insertNew_self _ _)
        · exact mem_insertNew_self _ _
      · have h1 : n = cm.committer_name := (Prod.ext_iff.mp hp).1
        have h2 : e = cm.committer_email := (Prod.ext_iff.mp hp).2
        subst h1; subst h2
        have hcond : (cm.committer_email != "" && cm.committer_name != "") = true := by
          simp [bne_iff_ne, hn, he]
        simp only [hcond, if_true]
        exact mem_insertNew_self _ _
    · rw [List.foldl_cons]
      exact ih h _

theorem uniquePairs_mem (commits : List Commit) {cm : Commit} {n e : String}
    (hcm : cm ∈ commits) (hp : (n, e) ∈ commitPairs cm)
    (hn : n ≠ "") (he : e ≠ "") :
    (n, e) ∈ uniquePairs commits :=
  uniquePairs_mem_fold commits hcm hp hn he []

end GhFake.Categorize

namespace GhFake.Categorize

theorem mem_sortInsert (x y : EmailEntry) (l : List EmailEntry) :
    x ∈ sortInsert y l ↔ x = y ∨ x ∈ l := by
  induction l with
  | nil => simp [sortInsert]
  | cons z zs ih =>
    unfold sortInsert
    split
    · simp
    · simp only [List.mem_cons, ih]
      tauto

theorem mem_sortEntries (x : EmailEntry) (l : List EmailEntry) :
    x ∈ sortEntries l ↔ x ∈ l := by
  induction l with
  | nil => simp [sortEntries]
  | cons y ys ih =>
    unfold sortEntries
    rw [mem_sortInsert, ih]
    simp

theorem classifyPair_owner_mono (st : CatState) (contribs : List String)
    (cat : Categorized) (p : String × String) :
    cat.owner_emails ⊆ (classifyPair st contribs cat p).owner_emails := by
  unfold classifyPair
  intro x hx
  split
  · exact hx
  · split
    · simp only [List.mem_append]
      exact Or.inl hx
    · split
      · exact hx
      · exact hx

theorem classifyPair_other_mono (st : CatState) (contribs : List String)
    (cat : Categorized) (p : String × String) :
    cat.other_emails ⊆ (classifyPair st contribs cat p).other_emails := by
  unfold classifyPair
  intro x hx
  split
  · exact hx
  · split
    · exact hx
    · split
      · exact hx
      · simp only [List.mem_append]
        exact Or.inl hx

theorem classifyPair_owner_hits (st : CatState) (contribs : List String)
    (cat : Categorized) {n e : String}
    (hg : ¬(e = "noreply@github.com" ∧ n = "GitHub"))
    (hown : (n, e) ∈ st.owner_name_email_pairs) :
    ({ email := e, name := n } : EmailEntry) ∈
      (classifyPair st contribs cat (n, e)).owner_emails := by
  unfold classifyPair
  have hgb : ((n, e).2 == "noreply@github.com" && (n, e).1 == "GitHub") = false := by
    cases hb : ((n, e).2 == "noreply@github.com" && (n, e).1 == "GitHub") with
    | false => rfl
    | true =>
      exfalso
      simp only [Bool.and_eq_true, beq_iff_eq] at hb
      exact hg ⟨hb.1, hb.2⟩
  simp only [hgb, Bool.false_eq_true, if_false]
  rw [if_pos hown]
  simp

theorem classifyPair_other_hits (st : CatState) (contribs : List String)
    (cat : Categorized) {n e : String}
    (hg : ¬(e = "noreply@github.com" ∧ n = "GitHub"))
    (hown : (n, e) ∉ st.owner_name_email_pairs)
    (hcon : is_contributor contribs n e = false) :
    ({ email := e, name := n } : EmailEntry) ∈
      (classifyPair st contribs cat (n, e)).other_emails := by
  unfold classifyPair
  have hgb : ((n, e).2 == "noreply@github.com" && (n, e).1 == "GitHub") = false := by
    cases hb : ((n, e).2 == "noreply@github.com" && (n, e).1 == "GitHub") with
    | false => rfl
    | true =>
      exfalso
      simp only [Bool.and_eq_true, beq_iff_eq] at hb
      exact hg ⟨hb.1, hb.2⟩
  simp only [hgb, Bool.false_eq_true, if_false]
  rw [if_neg hown, if_neg (by simp [hcon])]
  simp

theorem classify_fold_owner_mono (st : CatState) (contribs : List String)
    (pairs : List (String × String)) :
    ∀ (cat : Categorized),
      cat.owner_emails ⊆ (pairs.foldl (classifyPair st contribs) cat).owner_emails := by
  induction pairs with
  | nil => intro cat x hx; exact hx
  | cons p rest ih =>
    intro cat x hx
    rw [List.foldl_cons]
    exact ih _ (classifyPair_owner_mono st contribs cat p hx)

theorem classify_fold_other_mono (st : CatState) (contribs : List String)
    (pairs : List (String × String)) :
    ∀ (cat : Categorized),
      cat.other_emails ⊆ (pairs.foldl (classifyPair st contribs) cat).other_emails := by
  induction pairs with
  | nil => intro cat x hx; exact hx
  | cons p rest ih =>
    intro cat x hx
    rw [List.foldl_cons]
    exact ih _ (classifyPair_other_mono st contribs cat p hx)

theorem classify_fold_owner_mem (st : CatState) (contribs : List String)
    (pairs : List (String × String)) {n e : String}
    (hmem : (n, e) ∈ pairs)
    (hg : ¬(e = "noreply@github.com" ∧ n = "GitHub"))
    (hown : (n, e) ∈ st.owner_name_email_pairs) :
    ∀ (cat : Categorized),
      ({ email := e, name := n } : EmailEntry) ∈
        (pairs.foldl (classifyPair st contribs) cat).owner_emails := by
  induction pairs with
  | nil => cases hmem
  | cons p rest ih =>
    intro cat
    rcases List.mem_cons.mp hmem with h | h
    · subst h
      rw [List.foldl_cons]
      exact classify_fold_owner_mono st contribs rest _
        (classifyPair_owner_hits st contribs cat hg hown)
    · rw [List.foldl_cons]
      exact ih h _

theorem classify_fold_other_mem (st : CatState) (contribs : List String)
    (pairs : List (String × String)) {n e : String}
    (hmem : (n, e) ∈ pairs)
    (hg : ¬(e = "noreply@github.com" ∧ n = "GitHub"))
    (hown : (n, e) ∉ st.owner_name_email_pairs)
    (hcon : is_contributor contribs n e = false) :
    ∀ (cat : Categorized),
      ({ email := e, name := n } : EmailEntry) ∈
        (pairs.foldl (classifyPair st contribs) cat).other_emails := by
  induction pairs with
  | nil => cases hmem
  | cons p rest ih =>
    intro cat
    rcases List.mem_cons.mp hmem with h | h
    · subst h
      rw [List.foldl_cons]
      exact classify_fold_other_mono st contribs rest _
        (classifyPair_other_hits st contribs cat hg hown hcon)
    · rw [List.foldl_cons]
      exact ih h _

theorem classifyPair_contrib_invariant (st : CatState) (contribs : List String)
    (cat : Categorized) (p : String × String)
    (hinv : ∀ en ∈ cat.contributors_emails, (en.name, en.email) ∉ st.owner_name_email_pairs) :
    ∀ en ∈ (classifyPair st contribs cat p).contributors_emails,
      (en.name, en.email) ∉ st.owner_name_email_pairs := by
  unfold classifyPair
  split
  · exact hinv
  · split
    · exact hinv
    · split
      · rename_i hno _
        intro en hen
        simp only [List.mem_append, List.mem_singleton] at hen
        rcases hen with hen | hen
        · exact hinv en hen
        · subst hen
          simpa using hno
      · exact hinv

theorem classify_fold_contrib_invariant (st : CatState) (contribs : List String)
    (pairs : List (String × String)) :
    ∀ (cat : Categorized),
      (∀ en ∈ cat.contributors_emails, (en.name, en.email) ∉ st.owner_name_email_pairs) →
      ∀ en ∈ (pairs.foldl (classifyPair st contribs) cat).contributors_emails,
        (en.name, en.email) ∉ st.owner_name_email_pairs := by
  induction pairs with
  | nil => intro cat hinv; exact hinv
  | cons p rest ih =>
    intro cat hinv
    rw [List.foldl_cons]
    exact ih _ (classifyPair_contrib_invariant st contribs cat p hinv)

end GhFake.Categorize

namespace GhFake.Categorize

theorem categorize_owner_mem (username : String)
    (contributors_data : List (String × List String))
    (commits_data : List (String × List Commit)) {n e : String}
    (hpair : (n, e) ∈ uniquePairs (findAllCommits commits_data))
    (hown : (n, e) ∈ (identify_owner_details (sLower username)
        (findAllCommits commits_data)).owner_name_email_pairs)
    (hg : ¬(e = "noreply@github.com" ∧ n = "GitHub")) :
    ({ email := e, name := n } : EmailEntry) ∈
      (categorize_emails username contributors_data commits_data).owner_emails := by
  simp only [categorize_emails]
  rw [mem_sortEntries]
  exact classify_fold_owner_mem _ _ _ hpair hg hown _

theorem categorize_other_mem (username : String)
    (contributors_data : List (String × List String))
    (commits_data : List (String × List Commit)) {n e : String}
    (hpair : (n, e) ∈ uniquePairs (findAllCommits commits_data))
    (hown : (n, e) ∉ (identify_owner_details (sLower username)
        (findAllCommits commits_data)).owner_name_email_pairs)
    (hcon : is_contributor (all_contributors username contributors_data) n e = false)
    (hg : ¬(e = "noreply@github.com" ∧ n = "GitHub")) :
    ({ email := e, name := n } : EmailEntry) ∈
      (categorize_emails username contributors_data commits_data).other_emails := by
  simp only [categorize_emails]
  rw [mem_sortEntries]
  exact classify_fold_other_mem _ _ _ hpair hg hown hcon _

theorem categorize_contrib_not_mem (username : String)
    (contributors_data : List (String × List String))
    (commits_data : List (String × List Commit)) {n e : String}
    (hown : (n, e) ∈ (identify_owner_details (sLower username)
        (findAllCommits commits_data)).owner_name_email_pairs) :
    ({ email := e, name := n } : EmailEntry) ∉
      (categorize_emails username contributors_data commits_data).contributors_emails := by
  simp only [categorize_emails]
  rw [mem_sortEntries]
  intro hc
  have hinv := classify_fold_contrib_invariant
    (identify_owner_details (sLower username) (findAllCommits commits_data))
    (all_contributors username contributors_data)
    (uniquePairs (findAllCommits commits_data))
    { owner_emails := [], contributors_emails := [], other_emails := [] }
    (by intro en hen; cases hen)
    { email := e, name := n } hc
  exact hinv hown

end GhFake.Categorize

namespace GhFake

/-- C1: in any commit collection where the owner seed rule confirms
    (A, e1) — the lower-cased username occurring in e1 — and which also
    contains pairs (B, e1) and (B, e2) with truthy fields, the
    categorizer reports both B pairs as owner emails (closure through the
    shared email e1 and shared name B), while a pair (C, e3) whose email
    matches no confirmed owner email (hence with no name or email link
    into the owner set) and which is not a contributor is reported under
    other emails. -/
theorem c1_categorizer_closure
    (username A B C e1 e2 e3 : String)
    (contributors_data : List (String × List String))
    (commits_data : List (String × List Categorize.Commit))
    (hseed : strIn (sLower username) (sLower e1) = true)
    (hA : ∃ cm ∈ Categorize.findAllCommits commits_data,
        (A, e1) ∈ Categorize.commitPairs cm)
    (hB1 : ∃ cm ∈ Categorize.findAllCommits commits_data,
        (B, e1) ∈ Categorize.commitPairs cm)
    (hB2 : ∃ cm ∈ Categorize.findAllCommits commits_data,
        (B, e2) ∈ Categorize.commitPairs cm)
    (hBname : B ≠ "") (he1 : e1 ≠ "") (he2 : e2 ≠ "")
    (hBg1 : ¬(e1 = "noreply@github.com" ∧ B = "GitHub"))
    (hBg2 : ¬(e2 = "noreply@github.com" ∧ B = "GitHub"))
    (hC : ∃ cm ∈ Categorize.findAllCommits commits_data,
        (C, e3) ∈ Categorize.commitPairs cm)
    (hCname : C ≠ "") (he3 : e3 ≠ "")
    (hCg : ¬(e3 = "noreply@github.com" ∧ C = "GitHub"))
    (hClink : ∀ p ∈ (Categorize.identify_owner_details (sLower username)
        (Categorize.findAllCommits commits_data)).owner_name_email_pairs,
        sLower e3 ≠ sLower p.2)
    (hCcon : Categorize.is_contributor
        (Categorize.all_contributors username contributors_data) C e3 = false) :
    ({ email := e1, name := B } : Categorize.EmailEntry)
      ∈ (Categorize.categorize_emails username contributors_data commits_data).owner_emails
    ∧ ({ email := e2, name := B } : Categorize.EmailEntry)
      ∈ (Categorize.categorize_emails username contributors_data commits_data).owner_emails
    ∧ ({ email := e3, name := C } : Categorize.EmailEntry)
      ∈ (Categorize.categorize_emails username contributors_data commits_data).other_emails := by
  obtain ⟨cmB1, hcmB1, hpB1⟩ := hB1
  obtain ⟨cmB2, hcmB2, hpB2⟩ := hB2
  obtain ⟨cmC, hcmC, hpC⟩ := hC
  have hBe1own := Categorize.identify_owner_details_seed_pairs (sLower username)
    (Categorize.findAllCommits commits_data) hcmB1 hpB1 hseed
  have hBe2own := Categorize.identify_owner_details_closure_pairs (sLower username)
    (Categorize.findAllCommits commits_data) hcmB1 hpB1 hseed hcmB2 hpB2
  have hCnot : (C, e3) ∉ (Categorize.identify_owner_details (sLower username)
      (Categorize.findAllCommits commits_data)).owner_name_email_pairs :=
    fun hin => hClink (C, e3) hin rfl
  exact ⟨Categorize.categorize_owner_mem username contributors_data commits_data
      (Categorize.uniquePairs_mem _ hcmB1 hpB1 hBname he1) hBe1own hBg1,
    Categorize.categorize_owner_mem username contributors_data commits_data
      (Categorize.uniquePairs_mem _ hcmB2 hpB2 hBname he2) hBe2own hBg2,
    Categorize.categorize_other_mem username contributors_data commits_data
      (Categorize.uniquePairs_mem _ hcmC hpC hCname he3) hCnot hCcon hCg⟩

/-- The concrete commits of the spec's closure test: the owner commit
    (Alice, alice@x.com), Bob once with the owner's email and once with
    his own, and the unlinked Carol. -/
def c1cmA : Categorize.Commit :=
  { sha := "s1", author_name := "Alice", author_email := "alice@x.com",
    committer_name := "Alice", committer_email := "alice@x.com" }

def c1cmB1 : Categorize.Commit :=
  { sha := "s2", author_name := "Bob", author_email := "alice@x.com",
    committer_name := "Bob", committer_email := "alice@x.com" }

def c1cmB2 : Categorize.Commit :=
  { sha := "s3", author_name := "Bob", author_email := "bob@y.com",
    committer_name := "Bob", committer_email := "bob@y.com" }

def c1cmC : Categorize.Commit :=
  { sha := "s4", author_name := "Carol", author_email := "carol@z.com",
    committer_name := "Carol", committer_email := "carol@z.com" }

def c1data : List (String × List Categorize.Commit) :=
  [("repo", [c1cmA, c1cmB1, c1cmB2, c1cmC])]

/-- Witness for C1 on the spec's concrete scenario: both Bob pairs end
    in owner_emails, Carol in other_emails. -/
theorem c1_categorizer_closure_witness :
    ({ email := "alice@x.com", name := "Bob" } : Categorize.EmailEntry)
      ∈ (Categorize.categorize_emails "alice" [] c1data).owner_emails
    ∧ ({ email := "bob@y.com", name := "Bob" } : Categorize.EmailEntry)
      ∈ (Categorize.categorize_emails "alice" [] c1data).owner_emails
    ∧ ({ email := "carol@z.com", name := "Carol" } : Categorize.EmailEntry)
      ∈ (Categorize.categorize_emails "alice" [] c1data).other_emails :=
  c1_categorizer_closure "alice" "Alice" "Bob" "Carol"
    "alice@x.com" "bob@y.com" "carol@z.com" [] c1data
    (by decide)
    ⟨c1cmA, by decide, by decide⟩
    ⟨c1cmB1, by decide, by decide⟩
    ⟨c1cmB2, by decide, by decide⟩
    (by decide) (by decide) (by decide)
    (by decide) (by decide)
    ⟨c1cmC, by decide, by decide⟩
    (by decide) (by decide) (by decide)
    (by decide) (by decide)

/-- C10: the categorizer removes the lower-cased analyzed username from
    the contributor-login set, so a pair whose name lower-cases to the
    username can never satisfy the exact-login contributor test; and
    because the owner check precedes the contributor check, a pair
    confirmed as owner is reported under owner_emails and never under
    contributors_emails, even when the owner appears in the contributor
    lists. -/
theorem c10_owner_priority (username : String)
    (contributors_data : List (String × List String))
    (commits_data : List (String × List Categorize.Commit)) (n e : String)
    (hname : sLower n = sLower username)
    (hpair : (n, e) ∈ Categorize.uniquePairs (Categorize.findAllCommits commits_data))
    (hown : (n, e) ∈ (Categorize.identify_owner_details (sLower username)
        (Categorize.findAllCommits commits_data)).owner_name_email_pairs)
    (hg : ¬(e = "noreply@github.com" ∧ n = "GitHub")) :
    sLower n ∉ Categorize.all_contributors username contributors_data
    ∧ ({ email := e, name := n } : Categorize.EmailEntry)
      ∈ (Categorize.categorize_emails username contributors_data commits_data).owner_emails
    ∧ ({ email := e, name := n } : Categorize.EmailEntry)
      ∉ (Categorize.categorize_emails username contributors_data
          commits_data).contributors_emails := by
  refine ⟨?_, ?_, ?_⟩
  · intro hmem
    have hfilter := (List.mem_filter.mp hmem).2
    rw [hname] at hfilter
    simp at hfilter
  · exact Categorize.categorize_owner_mem username contributors_data commits_data
      hpair hown hg
  · exact Categorize.categorize_contrib_not_mem username contributors_data
      commits_data hown

/-- The commit used to witness C10: the owner committing under her
    GitHub noreply address while also listed as a repo contributor. -/
def c10cm : Categorize.Commit :=
  { sha := "t1", author_name := "Alice",
    author_email := "123+alice@users.noreply.github.com",
    committer_name := "Alice",
    committer_email := "123+alice@users.noreply.github.com" }

def c10data : List (String × List Categorize.Commit) := [("repo", [c10cm])]

/-- Witness for C10: with Alice herself in the contributor lists, her
    lower-cased login is removed from the contributor set and her owner
    pair is reported as owner, not as contributor. -/
theorem c10_owner_priority_witness :
    sLower "Alice" ∉ Categorize.all_contributors "alice" [("repo", ["Alice", "bob"])]
    ∧ ({ email := "123+alice@users.noreply.github.com", name := "Alice" } : Categorize.EmailEntry)
      ∈ (Categorize.categorize_emails "alice" [("repo", ["Alice", "bob"])] c10data).owner_emails
    ∧ ({ email := "123+alice@users.noreply.github.com", name := "Alice" } : Categorize.EmailEntry)
      ∉ (Categorize.categorize_emails "alice" [("repo", ["Alice", "bob"])]
          c10data).contributors_emails :=
  c10_owner_priority "alice" [("repo", ["Alice", "bob"])] c10data
    "Alice" "123+alice@users.noreply.github.com"
    (by decide) (by decide) (by decide) (by decide)

end GhFake

namespace GhFake.Categorize

/-- All author/committer pairs that can ever enter
    owner_name_email_pairs: the universe the saturation loop draws from. -/
def pairUniverse (commits : List Commit) : List (String × String) :=
  commits.flatMap commitPairs

theorem nodup_length_le {α : Type} [DecidableEq α] {l₁ l₂ : List α}
    (h : l₁.Nodup) (hs : l₁ ⊆ l₂) : l₁.length ≤ l₂.length := by
  have h1 : l₁.toFinset.card = l₁.length := List.toFinset_card_of_nodup h
  have h2 : l₁.toFinset ⊆ l₂.toFinset := by
    intro x hx
    simp only [List.mem_toFinset] at hx ⊢
    exact hs hx
  have h3 := Finset.card_le_card h2
  have h4 : l₂.toFinset.card ≤ l₂.length := l₂.toFinset_card_le
  omega

theorem pairUniverse_length (commits : List Commit) :
    (pairUniverse commits).length = 2 * commits.length := by
  induction commits with
  | nil => rfl
  | cons cm rest ih =>
    unfold pairUniverse at ih ⊢
    rw [List.flatMap_cons, List.length_append, ih]
    simp [commitPairs]
    omega

theorem commitPairs_subset_universe {cm : Commit} {commits : List Commit}
    (hcm : cm ∈ commits) : commitPairs cm ⊆ pairUniverse commits := by
  intro p hp
  exact List.mem_flatMap.mpr ⟨cm, hcm, hp⟩

theorem insertNew_nodup {α : Type} [DecidableEq α] (x : α) {l : List α}
    (h : l.Nodup) : (insertNew x l).Nodup := by
  unfold insertNew
  split
  · exact h
  · rename_i hnot
    rw [List.nodup_append]
    exact ⟨h, List.nodup_singleton x,
      fun a ha hb => hnot (by rwa [List.mem_singleton.mp hb] at ha)⟩

theorem insertNew_subset {α : Type} [DecidableEq α] {x : α} {l U : List α}
    (hU : l ⊆ U) (hx : x ∈ U) : insertNew x l ⊆ U := by
  unfold insertNew
  split
  · exact hU
  · intro a ha
    rcases List.mem_append.mp ha with h | h
    · exact hU h
    · rw [List.mem_singleton.mp h]
      exact hx

theorem satNameCheck_pairs_nodup (n e : String) (acc : CatState × Bool)
    (h : acc.1.owner_name_email_pairs.Nodup) :
    (satNameCheck n e acc).1.owner_name_email_pairs.Nodup := by
  unfold satNameCheck
  split
  · rename_i hcond
    rw [List.nodup_append]
    exact ⟨h, List.nodup_singleton _,
      fun a ha hb => hcond.2 (by rwa [List.mem_singleton.mp hb] at ha)⟩
  · exact h

theorem satNameCheck_pairs_subset (n e : String) (acc : CatState × Bool)
    {U : List (String × String)}
    (hU : acc.1.owner_name_email_pairs ⊆ U) (hx : (n, e) ∈ U) :
    (satNameCheck n e acc).1.owner_name_email_pairs ⊆ U := by
  unfold satNameCheck
  split
  · intro a ha
    rcases List.mem_append.mp ha with h | h
    · exact hU h
    · rw [List.mem_singleton.mp h]
      exact hx
  · exact hU

theorem satNameCheck_length_le (n e : String) (acc : CatState × Bool) :
    acc.1.owner_name_email_pairs.length ≤
      (satNameCheck n e acc).1.owner_name_email_pairs.length := by
  unfold satNameCheck
  split
  · simp
  · exact Nat.le_refl _

theorem satNameCheck_flag (n e : String) (acc : CatState × Bool)
    (h : (satNameCheck n e acc).2 = true) :
    acc.2 = true ∨ acc.1.owner_name_email_pairs.length <
      (satNameCheck n e acc).1.owner_name_email_pairs.length := by
  unfold satNameCheck at h ⊢
  split at h
  · right
    split
    · simp
    · exact absurd h (by simp_all)
  · exact Or.inl h

theorem satStep_pairs_nodup (acc : CatState × Bool) (cm : Commit)
    (h : acc.1.owner_name_email_pairs.Nodup) :
    (satStep acc cm).1.owner_name_email_pairs.Nodup := by
  unfold satStep
  simp only [satEmailCheck_pairs_eq]
  exact satNameCheck_pairs_nodup _ _ _ (satNameCheck_pairs_nodup _ _ _ h)

theorem satStep_pairs_subset (acc : CatState × Bool) {cm : Commit}
    {commits : List Commit} (hcm : cm ∈ commits)
    (hU : acc.1.owner_name_email_pairs ⊆ pairUniverse commits) :
    (satStep acc cm).1.owner_name_email_pairs ⊆ pairUniverse commits := by
  unfold satStep
  simp only [satEmailCheck_pairs_eq]
  refine satNameCheck_pairs_subset _ _ _ (satNameCheck_pairs_subset _ _ _ hU ?_) ?_
  · exact commitPairs_subset_universe hcm (by simp [commitPairs])
  · exact commitPairs_subset_universe hcm (by simp [commitPairs])

theorem satStep_length_le (acc : CatState × Bool) (cm : Commit) :
    acc.1.owner_name_email_pairs.length ≤
      (satStep acc cm).1.owner_name_email_pairs.length := by
  unfold satStep
  simp only [satEmailCheck_pairs_eq]
  exact Nat.le_trans (satNameCheck_length_le _ _ _) (satNameCheck_length_le _ _ _)

theorem satStep_flag (acc : CatState × Bool) (cm : Commit)
    (h : (satStep acc cm).2 = true) :
    acc.2 = true ∨ acc.1.owner_name_email_pairs.length <
      (satStep acc cm).1.owner_name_email_pairs.length := by
  unfold satStep at h ⊢
  simp only [satEmailCheck_pairs_eq]
  rcases satNameCheck_flag _ _ _ h with h2 | h2
  · rcases satNameCheck_flag _ _ _ h2 with h3 | h3
    · exact Or.inl h3
    · exact Or.inr (Nat.lt_of_lt_of_le h3 (satNameCheck_length_le _ _ _))
  · exact Or.inr (Nat.lt_of_le_of_lt (satNameCheck_length_le _ _ _) h2)

theorem satFold_pairs_nodup :
    ∀ (l : List Commit) (acc : CatState × Bool),
      acc.1.owner_name_email_pairs.Nodup →
      (l.foldl satStep acc).1.owner_name_email_pairs.Nodup := by
  intro l
  induction l with
  | nil => intro acc h; exact h
  | cons cm rest ih =>
    intro acc h
    rw [List.foldl_cons]
    exact ih _ (satStep_pairs_nodup acc cm h)

theorem satFold_pairs_subset {commits : List Commit} :
    ∀ (l : List Commit), (∀ cm ∈ l, cm ∈ commits) →
      ∀ (acc : CatState × Bool),
        acc.1.owner_name_email_pairs ⊆ pairUniverse commits →
        (l.foldl satStep acc).1.owner_name_email_pairs ⊆ pairUniverse commits := by
  intro l
  induction l with
  | nil => intro _ acc h; exact h
  | cons cm rest ih =>
    intro hsub acc h
    rw [List.foldl_cons]
    exact ih (fun c hc => hsub c (List.mem_cons_of_mem cm hc)) _
      (satStep_pairs_subset acc (hsub cm (List.mem_cons_self cm rest)) h)

theorem satFold_length_le :
    ∀ (l : List Commit) (acc : CatState × Bool),
      acc.1.owner_name_email_pairs.length ≤
        (l.foldl satStep acc).1.owner_name_email_pairs.length := by
  intro l
  induction l with
  | nil => intro acc; exact Nat.le_refl _
  | cons cm rest ih =>
    intro acc
    rw [List.foldl_cons]
    exact Nat.le_trans (satStep_length_le acc cm) (ih _)

theorem satFold_flag :
    ∀ (l : List Commit) (acc : CatState × Bool),
      (l.foldl satStep acc).2 = true →
      acc.2 = true ∨ acc.1.owner_name_email_pairs.length <
        (l.foldl satStep acc).1.owner_name_email_pairs.length := by
  intro l
  induction l with
  | nil => intro acc h; exact Or.inl h
  | cons cm rest ih =>
    intro acc h
    rw [List.foldl_cons] at h ⊢
    rcases ih _ h with h2 | h2
    · rcases satStep_flag acc cm h2 with h3 | h3
      · exact Or.inl h3
      · exact Or.inr (Nat.lt_of_lt_of_le h3 (satFold_length_le rest _))
    · exact Or.inr (Nat.lt_of_le_of_lt (satStep_length_le acc cm) h2)

theorem satPass_changed_growth (commits : List Commit) (st : CatState)
    (h : (satPass commits st).2 = true) :
    st.owner_name_email_pairs.length <
      (satPass commits st).1.owner_name_email_pairs.length := by
  rcases satFold_flag commits (st, false) h with h2 | h2
  · cases h2
  · exact h2

theorem satLoop_fuel_stable (commits : List Commit) :
    ∀ (fuel : Nat) (st : CatState),
      st.owner_name_email_pairs.Nodup →
      st.owner_name_email_pairs ⊆ pairUniverse commits →
      2 * commits.length + 1 ≤ fuel + st.owner_name_email_pairs.length →
      ∀ (extra : Nat), satLoop commits (fuel + extra) st = satLoop commits fuel st := by
  intro fuel
  induction fuel with
  | zero =>
    intro st hnd hsub hge extra
    exfalso
    have hle := nodup_length_le hnd hsub
    rw [pairUniverse_length] at hle
    omega
  | succ f ih =>
    intro st hnd hsub hge extra
    have hshape : f + 1 + extra = (f + extra) + 1 := by omega
    rw [hshape]
    show satLoop commits ((f + extra) + 1) st = satLoop commits (f + 1) st
    unfold satLoop
    by_cases hch : (satPass commits st).2 = true
    · rw [if_pos hch, if_pos hch]
      have hgrow := satPass_changed_growth commits st hch
      exact ih (satPass commits st).1
        (satFold_pairs_nodup commits (st, false) hnd)
        (satFold_pairs_subset commits (fun c hc => hc) (st, false) hsub)
        (by omega) extra
    · rw [if_neg hch, if_neg hch]

theorem seedSlot_pairs_nodup (uname n e : String) (st : CatState)
    (h : st.owner_name_email_pairs.Nodup) :
    (seedSlot uname n e st).owner_name_email_pairs.Nodup := by
  unfold seedSlot
  split
  · exact insertNew_nodup _ h
  · exact h

theorem seedSlot_pairs_subset (uname n e : String) (st : CatState)
    {U : List (String × String)}
    (hU : st.owner_name_email_pairs ⊆ U) (hx : (n, e) ∈ U) :
    (seedSlot uname n e st).owner_name_email_pairs ⊆ U := by
  unfold seedSlot
  split
  · exact insertNew_subset hU hx
  · exact hU

theorem seedPass_pairs_nodup (uname : String) :
    ∀ (l : List Commit) (st : CatState),
      st.owner_name_email_pairs.Nodup →
      (seedPass uname l st).owner_name_email_pairs.Nodup := by
  intro l
  induction l with
  | nil => intro st h; exact h
  | cons cm rest ih =>
    intro st h
    exact ih _ (seedSlot_pairs_nodup _ _ _ _ (seedSlot_pairs_nodup _ _ _ _ h))

theorem seedPass_pairs_subset (uname : String) {commits : List Commit} :
    ∀ (l : List Commit), (∀ cm ∈ l, cm ∈ commits) →
      ∀ (st : CatState),
        st.owner_name_email_pairs ⊆ pairUniverse commits →
        (seedPass uname l st).owner_name_email_pairs ⊆ pairUniverse commits := by
  intro l
  induction l with
  | nil => intro _ st h; exact h
  | cons cm rest ih =>
    intro hsub st h
    refine ih (fun c hc => hsub c (List.mem_cons_of_mem cm hc)) _ ?_
    refine seedSlot_pairs_subset _ _ _ _ (seedSlot_pairs_subset _ _ _ _ h ?_) ?_
    · exact commitPairs_subset_universe (hsub cm (List.mem_cons_self cm rest))
        (by simp [commitPairs])
    · exact commitPairs_subset_universe (hsub cm (List.mem_cons_self cm rest))
        (by simp [commitPairs])

/-- The fuel 2 * |commits| + 1 handed to the saturation loop is enough:
    any extra fuel leaves the result of _identify_owner_details
    unchanged, so the fuel-based embedding computes exactly the fixed
    point the source's while-changed loop terminates on. -/
theorem identify_owner_details_fuel_stable (uname : String)
    (commits : List Commit) (extra : Nat) :
    satLoop commits (2 * commits.length + 1 + extra)
        (seedPass uname commits
          { owner_identities := [uname], owner_name_email_pairs := [] }) =
      identify_owner_details uname commits := by
  unfold identify_owner_details
  exact satLoop_fuel_stable commits (2 * commits.length + 1) _
    (seedPass_pairs_nodup uname commits _ List.nodup_nil)
    (seedPass_pairs_subset uname commits (fun c hc => hc) _
      (fun x hx => absurd hx (List.not_mem_nil x)))
    (by omega) extra

end GhFake.Categorize
